import Mathlib

/-!
Verification of the MedCAT checkpoint manager (`medcat/utils/checkpoint.py`).

The Python `Checkpoint` class is shallowly embedded below.  Paths are
`String`s; the single checkpoint directory is modelled as a `World` holding a
flag for the directory's existence plus a flat listing of entries.
`os.path.abspath` is modelled as the identity on the already-absolute,
normalised paths the class stores (`__init__` calls `abspath` once), and
`os.path.join d n` as `d ++ "/" ++ n` for a directory without a trailing
separator and a relative `n`, which is how the class always invokes it.
Python `int(...)` is modelled for ASCII inputs (optional surrounding
whitespace, optional sign, decimal digits); underscore digit grouping and
non-ASCII digits are not modelled, and no filename built by the class ever
uses them.
-/

/-- A decimal digit character, ASCII `'0'..'9'`. -/
def isDig (c : Char) : Bool := 48 ≤ c.toNat && c.toNat ≤ 57

/-- Numeric value of a digit character. -/
def digitVal (c : Char) : Nat := c.toNat - 48

/-- Value of a list of digit characters, most significant first. -/
def digitsVal (cs : List Char) : Nat := cs.foldl (fun a c => a * 10 + digitVal c) 0

/-- The digit character for `n < 10`. -/
def digitChar : Nat → Char
  | 0 => '0'
  | 1 => '1'
  | 2 => '2'
  | 3 => '3'
  | 4 => '4'
  | 5 => '5'
  | 6 => '6'
  | 7 => '7'
  | 8 => '8'
  | 9 => '9'
  | _ => '*'

/-- Decimal digits of `n`, most significant first; fuel-driven so that the
kernel can evaluate it. -/
def natDigitsAux : Nat → Nat → List Char
  | 0, _ => []
  | fuel + 1, n =>
    if n < 10 then [digitChar n]
    else natDigitsAux fuel (n / 10) ++ [digitChar (n % 10)]

/-- Decimal rendering of a natural number, as Python `str` renders it. -/
def natDigits (n : Nat) : List Char := natDigitsAux (n + 1) n

/-- Python `str` of an integer: a minus sign before the digits when negative. -/
def intStr (i : Int) : String :=
  if i < 0 then "-" ++ ⟨natDigits i.natAbs⟩ else ⟨natDigits i.toNat⟩

/-- ASCII whitespace, the fragment of Python `str.strip()` that matters here. -/
def isWs (c : Char) : Bool := c = ' ' || c = '\t' || c = '\n' || c = '\r'

/-- Strip leading and trailing whitespace, as Python `int` does before parsing. -/
def trimWs (cs : List Char) : List Char :=
  ((cs.dropWhile isWs).reverse.dropWhile isWs).reverse

/-- A non-empty all-digit character list parsed to a natural number. -/
def digitsOptNat (cs : List Char) : Option Nat :=
  if cs ≠ [] ∧ cs.all isDig then some (digitsVal cs) else none

/-- Python `int(s)` on a character list: strip whitespace, optional sign,
then decimal digits; `none` models the `ValueError`. -/
def pyIntChars (cs0 : List Char) : Option Int :=
  match trimWs cs0 with
  | [] => none
  | c :: rest =>
    if c = '-' then (digitsOptNat rest).map (fun n : Nat => -(n : Int))
    else if c = '+' then (digitsOptNat rest).map (fun n : Nat => (n : Int))
    else (digitsOptNat (c :: rest)).map (fun n : Nat => (n : Int))

/-- Python `s.split(sep)` for a single-character separator. -/
def splitOnChar (sep : Char) : List Char → List (List Char)
  | [] => [[]]
  | c :: rest =>
    match splitOnChar sep rest with
    | [] => [[]]
    | g :: gs => if c = sep then [] :: g :: gs else (c :: g) :: gs

/-- `os.path.basename`: everything after the final path separator. -/
def basenameChars (cs : List Char) : List Char := (splitOnChar '/' cs).getLastD []

/-- Bool test that `pre` is a prefix of the second list. -/
def hasPre : List Char → List Char → Bool
  | [], _ => true
  | _ :: _, [] => false
  | a :: as, b :: bs => a == b && hasPre as bs

/-- Bool test that `sub` occurs inside `l`: Python `sub in l` on strings. -/
def containsSub (sub : List Char) : List Char → Bool
  | [] => sub.isEmpty
  | c :: rest => hasPre sub (c :: rest) || containsSub sub rest

/-- Python `sub in s` for strings. -/
def strContains (s sub : String) : Bool := containsSub sub.data s.data

/-- `os.path.join` in the only shape the class uses: absolute directory with no
trailing separator, relative file name. -/
def pathJoin (dir name : String) : String := dir ++ "/" ++ name

/-- The checkpoint file name, `"checkpoint-%s-%s" % (steps, count)`. -/
def ckptName (steps count : Int) : String :=
  "checkpoint-" ++ intStr steps ++ "-" ++ intStr count

/-- The literal tag the discovery filter looks for. -/
def ckptTag : String := "checkpoint-"

/-- `Checkpoint._get_steps_and_count`: split the basename on `'-'` and read
fields 1 and 2 as integers; `none` models the raised exception. -/
def getStepsAndCount (filePath : String) : Option (Int × Int) :=
  let parts := splitOnChar '-' (basenameChars filePath.data)
  match parts.get? 1, parts.get? 2 with
  | some p1, some p2 =>
    (match pyIntChars p1, pyIntChars p2 with
     | some s, some c => some (s, c)
     | _, _ => none)
  | _, _ => none

/-- The `count` embedded in a checkpoint file name, when the name parses. -/
def embCount (f : String) : Option Int := (getStepsAndCount f).map (fun p => p.2)

/-- Sort key used by the discovery scan: `_get_steps_and_count(f)[1]`.  It is
only consulted on names that parse; the default is irrelevant there. -/
def keyCount (f : String) : Int := (embCount f).getD 0

/-- One entry of the checkpoint directory: its name and whether it is a
regular file. -/
structure DirEntry where
  name : String
  isFile : Bool
deriving DecidableEq, Repr

/-- The filesystem as the class observes it: whether the checkpoint directory
exists, and its flat listing. -/
structure World where
  dirExists : Bool
  entries : List DirEntry
deriving DecidableEq, Repr

/-- The in-memory fields of a `Checkpoint` object. -/
structure Checkpoint where
  dirPath : String
  steps : Int
  maxToKeep : Int
  filePaths : List String
  count : Int
deriving DecidableEq, Repr

/-- The exceptions the class raises, per the spec's taxonomy; `fileNotFound`
and `indexError` are the raw OS/runtime errors that fall outside it. -/
inductive Err where
  | invalidArgument
  | notFound
  | corruptName
  | notRestored
  | persistenceFailure
  | fileNotFound
  | indexError
deriving DecidableEq, Repr

/-- An entry of the listing matches the discovery filter:
`os.path.isfile(f) and "checkpoint-" in f`, where `f` is the ABSOLUTE path of
the entry (the join of the directory path and the entry name). -/
def matchesCkpt (dirPath : String) (e : DirEntry) : Bool :=
  e.isFile && strContains (pathJoin dirPath e.name) ckptTag

/-- The absolute paths of the listing entries that pass the discovery filter,
in listing order. -/
def matchedPaths (dirPath : String) (fs : List DirEntry) : List String :=
  (fs.filter (matchesCkpt dirPath)).map (fun e => pathJoin dirPath e.name)

/-- `Checkpoint._get_ckpt_file_paths`: list, filter, then sort ascending by
the embedded count.  Python's `list.sort(key=...)` computes the key of every
element, so one unparsable matching name aborts the whole scan; the sort of a
non-empty list is modelled by a stable insertion sort, and sorting is skipped
on an empty list where it is the identity anyway. -/
def getCkptFilePaths (dirPath : String) (fs : List DirEntry) : Except Err (List String) :=
  let paths := matchedPaths dirPath fs
  if paths.all (fun f => (getStepsAndCount f).isSome) then
    .ok (List.insertionSort (fun a b => keyCount a ≤ keyCount b) paths)
  else .error .corruptName

/-- `os.path.isfile(path)` against the modelled listing. -/
def isFileAt (dirPath : String) (fs : List DirEntry) (path : String) : Bool :=
  fs.any (fun e => pathJoin dirPath e.name == path && e.isFile)

/-- `os.remove(path)`: drops the entry, or fails when no regular file is at
`path`. -/
def osRemove (dirPath : String) (fs : List DirEntry) (path : String) :
    Except Err (List DirEntry) :=
  if isFileAt dirPath fs path then
    .ok (fs.filter (fun e => !(pathJoin dirPath e.name == path)))
  else .error .fileNotFound

/-- The eviction loop of `save`:
`while len(file_paths) >= max_to_keep: p = file_paths.pop(0); os.remove(p)`.
The pop happens before the remove, so on an `os.remove` failure the popped
path is already gone from the returned list. -/
def evict (dirPath : String) (maxToKeep : Int) :
    List String → List DirEntry → Except Err Unit × List String × List DirEntry
  | [], fs =>
    if (0 : Int) ≥ maxToKeep then (.error .indexError, [], fs) else (.ok (), [], fs)
  | p :: rest, fs =>
    if (((p :: rest).length : Int)) ≥ maxToKeep then
      match osRemove dirPath fs p with
      | .ok fs2 => evict dirPath maxToKeep rest fs2
      | .error e => (.error e, rest, fs)
    else (.ok (), p :: rest, fs)

/-- The model collaborator's `cdb.save(path)` writing a complete file: the
directory listing gains (or replaces) the named regular file. -/
def writeFile (fs : List DirEntry) (name : String) : List DirEntry :=
  (fs.filter (fun e => !(e.name == name))) ++ [⟨name, true⟩]

/-- Modelled from the spec: the `check_positive` decorator lives in
`medcat.utils.decorators`, which is not among the sources; per the spec it
validates each decorated integer argument to be positive and raises
`InvalidArgument` otherwise, leaving the object untouched. -/
def checkPositive (vals : List Int) : Bool := vals.all (fun v => 0 < v)

/-- `Checkpoint.__init__`: validate, store, create the directory
(`os.makedirs(..., exist_ok=True)` — idempotent, listing untouched). -/
def Checkpoint.init (dirPath : String) (steps maxToKeep : Int) (w : World) :
    Except Err (Checkpoint × World) :=
  if checkPositive [steps, maxToKeep] then
    .ok ({ dirPath := dirPath, steps := steps, maxToKeep := maxToKeep,
           filePaths := [], count := 0 },
         { w with dirExists := true })
  else .error .invalidArgument

/-- The validated `steps` setter. -/
def Checkpoint.setSteps (ck : Checkpoint) (v : Int) : Except Err Checkpoint :=
  if checkPositive [v] then .ok { ck with steps := v } else .error .invalidArgument

/-- The validated `max_to_keep` setter. -/
def Checkpoint.setMaxToKeep (ck : Checkpoint) (v : Int) : Except Err Checkpoint :=
  if checkPositive [v] then .ok { ck with maxToKeep := v } else .error .invalidArgument

/-- The caller-facing default of `max_to_keep`. -/
def defaultMaxToKeep : Int := 1

/-- `Checkpoint.save`: evict while over capacity, have the model write the new
file, then append the path and update the count.  The collaborator is a flag:
`true` means `cdb.save` wrote the file, `false` means it raised
(`PersistenceFailure`); partial mutation before a raise is preserved, exactly
as in Python. -/
def Checkpoint.save (ck : Checkpoint) (w : World) (cdbSaveOk : Bool) (count : Int) :
    Except Err Unit × Checkpoint × World :=
  let name := ckptName ck.steps count
  match evict ck.dirPath ck.maxToKeep ck.filePaths w.entries with
  | (Except.error e, paths, fs) =>
    (.error e, { ck with filePaths := paths }, { w with entries := fs })
  | (Except.ok _, paths, fs) =>
    if cdbSaveOk then
      (.ok (), { ck with filePaths := paths ++ [pathJoin ck.dirPath name], count := count },
       { w with entries := writeFile fs name })
    else
      (.error .persistenceFailure, { ck with filePaths := paths }, { w with entries := fs })

/-- `Checkpoint.load`: directory check, scan, then construct through
`cls(dir_path, steps=steps)` (so the validated constructor runs) and overwrite
`filePaths`/`count`.  The `none` parse branch is unreachable because a
successful scan parses every path. -/
def Checkpoint.load (dirPath : String) (w : World) : Except Err (Checkpoint × World) :=
  if !w.dirExists then .error .notFound
  else
    match getCkptFilePaths dirPath w.entries with
    | .error e => .error e
    | .ok paths =>
      if paths.isEmpty then .error .notFound
      else
        match getStepsAndCount (paths.getLastD "") with
        | none => .error .corruptName
        | some (steps, count) =>
          match Checkpoint.init dirPath steps defaultMaxToKeep w with
          | .error e => .error e
          | .ok (ck, w2) => .ok ({ ck with filePaths := paths, count := count }, w2)

/-- `Checkpoint.restore`: `load`'s scan run against the object's own
directory, mutating `filePaths`/`count` in place only after everything
succeeded. -/
def Checkpoint.restore (ck : Checkpoint) (w : World) : Except Err Checkpoint :=
  if !w.dirExists then .error .notFound
  else
    match getCkptFilePaths ck.dirPath w.entries with
    | .error e => .error e
    | .ok paths =>
      if paths.isEmpty then .error .notFound
      else
        match getStepsAndCount (paths.getLastD "") with
        | none => .error .corruptName
        | some sc => .ok { ck with filePaths := paths, count := sc.2 }

/-- The per-path loop of `purge`: delete each scanned path that is (still) a
regular file, remembering what was removed; non-regular entries are skipped
silently. -/
def purgeLoop (dirPath : String) : List String → List DirEntry → List String × List DirEntry
  | [], fs => ([], fs)
  | p :: rest, fs =>
    if isFileAt dirPath fs p then
      let out := purgeLoop dirPath rest (fs.filter (fun e => !(pathJoin dirPath e.name == p)))
      (p :: out.1, out.2)
    else purgeLoop dirPath rest fs

/-- `Checkpoint.purge`: rescan, delete, clear the in-memory state, return the
removed paths.  `os.listdir` on a missing directory raises the raw
`FileNotFoundError` (purge has no directory guard). -/
def Checkpoint.purge (ck : Checkpoint) (w : World) :
    Except Err (List String × Checkpoint × World) :=
  if !w.dirExists then .error .fileNotFound
  else
    match getCkptFilePaths ck.dirPath w.entries with
    | .error e => .error e
    | .ok paths =>
      let out := purgeLoop ck.dirPath paths w.entries
      .ok (out.1, { ck with filePaths := [], count := 0 }, { w with entries := out.2 })

/-- `Checkpoint.populate`: the path handed to the model's `load`, namely
`file_paths[-1]`, or `NotRestored` on an empty list.  The method reads and
never writes the object, so no updated state is returned. -/
def Checkpoint.populate (ck : Checkpoint) : Except Err String :=
  match ck.filePaths.getLast? with
  | none => .error .notRestored
  | some p => .ok p

/-- Discovery as the spec sentence words it, for comparison: the tag filter
applied to the entry NAME alone rather than to the absolute path. -/
def specNameFilterScan (dirPath : String) (fs : List DirEntry) : Except Err (List String) :=
  let paths := (fs.filter (fun e => e.isFile && strContains e.name ckptTag)).map
    (fun e => pathJoin dirPath e.name)
  if paths.all (fun f => (getStepsAndCount f).isSome) then
    .ok (List.insertionSort (fun a b => keyCount a ≤ keyCount b) paths)
  else .error .corruptName

/-- States reachable through successfully completing operations, where every
`save` call additionally satisfies `P` (instantiated below). -/
inductive ReachableVia (P : Checkpoint → Int → Prop) : Checkpoint → World → Prop where
  | fromInit : ∀ d s m w ck w2, Checkpoint.init d s m w = .ok (ck, w2) →
      ReachableVia P ck w2
  | fromLoad : ∀ d w ck w2, Checkpoint.load d w = .ok (ck, w2) →
      ReachableVia P ck w2
  | fromSave : ∀ ck w c ck2 w2, ReachableVia P ck w → P ck c →
      Checkpoint.save ck w true c = (.ok (), ck2, w2) → ReachableVia P ck2 w2
  | fromRestore : ∀ ck w ck2, ReachableVia P ck w → Checkpoint.restore ck w = .ok ck2 →
      ReachableVia P ck2 w
  | fromPurge : ∀ ck w r ck2 w2, ReachableVia P ck w →
      Checkpoint.purge ck w = .ok (r, ck2, w2) → ReachableVia P ck2 w2
  | fromSetSteps : ∀ ck w v ck2, ReachableVia P ck w → Checkpoint.setSteps ck v = .ok ck2 →
      ReachableVia P ck2 w
  | fromSetMaxToKeep : ∀ ck w v ck2, ReachableVia P ck w →
      Checkpoint.setMaxToKeep ck v = .ok ck2 → ReachableVia P ck2 w

/-- States reachable through any successfully completing operation calls. -/
def Reachable : Checkpoint → World → Prop := ReachableVia (fun _ _ => True)

/-- States reachable when `save` calls may also FAIL: every constructor of
`ReachableVia`, with the save constructor generalised to an arbitrary outcome
`r` (a model-write failure, or an eviction failure, both of which leave the
partially mutated object behind in the source).  Failing `load`, `restore`,
`purge` and setter calls mutate nothing in the source — every field write
comes after the last raise point — so they add no states and need no extra
constructors. -/
inductive ReachableAllVia (P : Checkpoint → Int → Prop) : Checkpoint → World → Prop where
  | fromInit : ∀ d s m w ck w2, Checkpoint.init d s m w = .ok (ck, w2) →
      ReachableAllVia P ck w2
  | fromLoad : ∀ d w ck w2, Checkpoint.load d w = .ok (ck, w2) →
      ReachableAllVia P ck w2
  | fromSaveAny : ∀ ck w b c r ck2 w2, ReachableAllVia P ck w → P ck c →
      Checkpoint.save ck w b c = (r, ck2, w2) → ReachableAllVia P ck2 w2
  | fromRestore : ∀ ck w ck2, ReachableAllVia P ck w → Checkpoint.restore ck w = .ok ck2 →
      ReachableAllVia P ck2 w
  | fromPurge : ∀ ck w r ck2 w2, ReachableAllVia P ck w →
      Checkpoint.purge ck w = .ok (r, ck2, w2) → ReachableAllVia P ck2 w2
  | fromSetSteps : ∀ ck w v ck2, ReachableAllVia P ck w → Checkpoint.setSteps ck v = .ok ck2 →
      ReachableAllVia P ck2 w
  | fromSetMaxToKeep : ∀ ck w v ck2, ReachableAllVia P ck w →
      Checkpoint.setMaxToKeep ck v = .ok ck2 → ReachableAllVia P ck2 w

/-- `filePaths` is sorted ascending by the embedded count. -/
def sortedByCount (l : List String) : Prop :=
  List.Pairwise (fun a b => keyCount a ≤ keyCount b) l

/-- `count` equals the count embedded in the last element of `filePaths`, or
`0` when the list is empty. -/
def countMatchesLast (ck : Checkpoint) : Prop :=
  match ck.filePaths.getLast? with
  | none => ck.count = 0
  | some f => embCount f = some ck.count

/-! ### Digit rendering and parsing round-trip -/

theorem isDig_digitChar {n : Nat} (h : n < 10) : isDig (digitChar n) = true := by
  interval_cases n <;> decide

theorem digitVal_digitChar {n : Nat} (h : n < 10) : digitVal (digitChar n) = n := by
  interval_cases n <;> decide

theorem natDigitsAux_all_dig : ∀ fuel n, n < fuel → ((natDigitsAux fuel n).all isDig) = true := by
  intro fuel
  induction fuel with
  | zero => intro n h; omega
  | succ f ih =>
    intro n h
    by_cases h10 : n < 10
    · simp [natDigitsAux, h10, isDig_digitChar h10]
    · have hfe : n / 10 < f := by omega
      rw [natDigitsAux, if_neg h10, List.all_append, ih _ hfe]
      simp [isDig_digitChar (Nat.mod_lt n (by omega))]

theorem natDigits_all_dig (n : Nat) : ((natDigits n).all isDig) = true :=
  natDigitsAux_all_dig (n + 1) n (Nat.lt_succ_self n)

theorem natDigitsAux_ne_nil : ∀ fuel n, n < fuel → natDigitsAux fuel n ≠ [] := by
  intro fuel
  induction fuel with
  | zero => intro n h; omega
  | succ f ih =>
    intro n h
    by_cases h10 : n < 10
    · simp [natDigitsAux, h10]
    · simp [natDigitsAux, h10]

theorem natDigits_ne_nil (n : Nat) : natDigits n ≠ [] :=
  natDigitsAux_ne_nil (n + 1) n (Nat.lt_succ_self n)

theorem digitsVal_append_singleton (cs : List Char) (c : Char) :
    digitsVal (cs ++ [c]) = digitsVal cs * 10 + digitVal c := by
  simp [digitsVal, List.foldl_append]

theorem digitsVal_natDigitsAux : ∀ fuel n, n < fuel → digitsVal (natDigitsAux fuel n) = n := by
  intro fuel
  induction fuel with
  | zero => intro n h; omega
  | succ f ih =>
    intro n h
    by_cases h10 : n < 10
    · simp [natDigitsAux, h10, digitsVal, digitVal_digitChar h10]
    · have hfe : n / 10 < f := by omega
      rw [natDigitsAux, if_neg h10, digitsVal_append_singleton, ih _ hfe,
        digitVal_digitChar (Nat.mod_lt n (by omega))]
      omega

theorem digitsVal_natDigits (n : Nat) : digitsVal (natDigits n) = n :=
  digitsVal_natDigitsAux (n + 1) n (Nat.lt_succ_self n)

theorem isDig_facts {c : Char} (h : isDig c = true) :
    c ≠ '-' ∧ c ≠ '+' ∧ c ≠ '/' ∧ isWs c = false := by
  refine ⟨?_, ?_, ?_, ?_⟩
  · intro he; subst he; exact absurd h (by decide)
  · intro he; subst he; exact absurd h (by decide)
  · intro he; subst he; exact absurd h (by decide)
  · by_contra hw
    simp only [Bool.not_eq_false, isWs, Bool.or_eq_true, decide_eq_true_eq] at hw
    rcases hw with ((he | he) | he) | he <;> (subst he; exact absurd h (by decide))

theorem dropWhile_isWs_of_all_dig {cs : List Char} (h : cs.all isDig = true) :
    cs.dropWhile isWs = cs := by
  cases cs with
  | nil => rfl
  | cons c t =>
    simp only [List.all_cons, Bool.and_eq_true] at h
    simp [List.dropWhile_cons, (isDig_facts h.1).2.2.2]

theorem trimWs_of_all_dig {cs : List Char} (h : cs.all isDig = true) : trimWs cs = cs := by
  have hrev : cs.reverse.all isDig = true := by
    simp only [List.all_eq_true] at h ⊢
    exact fun c hc => h c (List.mem_reverse.mp hc)
  rw [trimWs, dropWhile_isWs_of_all_dig h, dropWhile_isWs_of_all_dig hrev, List.reverse_reverse]

theorem pyIntChars_natDigits (n : Nat) : pyIntChars (natDigits n) = some (n : Int) := by
  have hall := natDigits_all_dig n
  have hne := natDigits_ne_nil n
  obtain ⟨c, rest, hcr⟩ : ∃ c rest, natDigits n = c :: rest := by
    cases hd : natDigits n with
    | nil => exact absurd hd hne
    | cons c rest => exact ⟨c, rest, rfl⟩
  have hallc : (c :: rest).all isDig = true := hcr ▸ hall
  have hdigc : isDig c = true := by
    simp only [List.all_cons, Bool.and_eq_true] at hallc
    exact hallc.1
  rw [pyIntChars, trimWs_of_all_dig hall, hcr]
  dsimp only
  rw [if_neg (isDig_facts hdigc).1, if_neg (isDig_facts hdigc).2.1]
  rw [digitsOptNat, if_pos ⟨List.cons_ne_nil c rest, hallc⟩, ← hcr, digitsVal_natDigits]
  rfl

/-! ### Splitting and basename lemmas -/

theorem splitOnChar_ne_nil (sep : Char) (cs : List Char) : splitOnChar sep cs ≠ [] := by
  cases cs with
  | nil => simp [splitOnChar]
  | cons c rest =>
    rw [splitOnChar]
    cases h : splitOnChar sep rest with
    | nil => simp
    | cons g gs =>
      by_cases hc : c = sep <;> simp [hc]

theorem splitOnChar_dest (sep : Char) (cs : List Char) :
    ∃ g gs, splitOnChar sep cs = g :: gs := by
  cases h : splitOnChar sep cs with
  | nil => exact absurd h (splitOnChar_ne_nil sep cs)
  | cons g gs => exact ⟨g, gs, rfl⟩

theorem splitOnChar_cons_eq {sep c : Char} {rest g : List Char} {gs : List (List Char)}
    (hs : splitOnChar sep rest = g :: gs) :
    splitOnChar sep (c :: rest) = if c = sep then [] :: g :: gs else (c :: g) :: gs := by
  rw [splitOnChar, hs]

theorem splitOnChar_no_sep {sep : Char} {cs : List Char} (h : sep ∉ cs) :
    splitOnChar sep cs = [cs] := by
  induction cs with
  | nil => rfl
  | cons c rest ih =>
    have hcr : sep ∉ rest := fun hm => h (List.mem_cons_of_mem c hm)
    have hcs : c ≠ sep := fun he => h (he ▸ List.mem_cons_self c rest)
    rw [splitOnChar_cons_eq (ih hcr), if_neg hcs]

theorem splitOnChar_append {sep : Char} {a : List Char} (b : List Char) (h : sep ∉ a) :
    splitOnChar sep (a ++ sep :: b) = a :: splitOnChar sep b := by
  induction a with
  | nil =>
    obtain ⟨g, gs, hs⟩ := splitOnChar_dest sep b
    rw [List.nil_append, splitOnChar_cons_eq hs, if_pos rfl, hs]
  | cons x a2 ih =>
    have hxa : sep ∉ a2 := fun hm => h (List.mem_cons_of_mem x hm)
    have hxs : x ≠ sep := fun he => h (he ▸ List.mem_cons_self x a2)
    have hrec : splitOnChar sep (a2 ++ sep :: b) = a2 :: splitOnChar sep b := ih hxa
    rw [List.cons_append, splitOnChar_cons_eq hrec, if_neg hxs]

theorem splitOnChar_mem_no_sep {sep : Char} {cs : List Char} :
    ∀ g ∈ splitOnChar sep cs, sep ∉ g := by
  induction cs with
  | nil =>
    intro g hg
    rw [splitOnChar, List.mem_singleton] at hg
    subst hg; simp
  | cons c rest ih =>
    intro g hg
    obtain ⟨g0, gs, hs⟩ := splitOnChar_dest sep rest
    rw [splitOnChar_cons_eq hs] at hg
    by_cases hc : c = sep
    · rw [if_pos hc] at hg
      rcases List.mem_cons.mp hg with hgg | hgg
      · subst hgg; simp
      · exact ih g (hs ▸ hgg)
    · rw [if_neg hc] at hg
      rcases List.mem_cons.mp hg with hgg | hgg
      · subst hgg
        intro hmem
        rcases List.mem_cons.mp hmem with he | he
        · exact hc he.symm
        · exact ih g0 (hs ▸ List.mem_cons_self g0 gs) he
      · exact ih g (hs ▸ List.mem_cons_of_mem g0 hgg)

theorem splitOnChar_length_two {sep : Char} {cs : List Char} (h : sep ∈ cs) :
    2 ≤ (splitOnChar sep cs).length := by
  induction cs with
  | nil => simp at h
  | cons c rest ih =>
    obtain ⟨g, gs, hs⟩ := splitOnChar_dest sep rest
    rw [splitOnChar_cons_eq hs]
    by_cases hc : c = sep
    · simp [hc]
    · rw [if_neg hc]
      rcases List.mem_cons.mp h with he | hmem
      · exact absurd he.symm hc
      · have := hs ▸ ih hmem
        simpa using this

theorem getLastD_of_ne_nil {α : Type} {l : List α} (h : l ≠ []) (d1 d2 : α) :
    l.getLastD d1 = l.getLastD d2 := by
  cases l with
  | nil => exact absurd rfl h
  | cons x xs => rw [List.getLastD_cons, List.getLastD_cons]

theorem splitOnChar_getLastD_append {sep : Char} (a b : List Char) :
    (splitOnChar sep (a ++ sep :: b)).getLastD [] = (splitOnChar sep b).getLastD [] := by
  induction a with
  | nil =>
    obtain ⟨g, gs, hs⟩ := splitOnChar_dest sep b
    rw [List.nil_append, splitOnChar_cons_eq hs, if_pos rfl, List.getLastD_cons, hs]
  | cons x a2 ih =>
    obtain ⟨g, gs, hs⟩ := splitOnChar_dest sep (a2 ++ sep :: b)
    have hlen : 2 ≤ (splitOnChar sep (a2 ++ sep :: b)).length :=
      splitOnChar_length_two (by simp)
    rw [hs] at hlen
    have hgs : gs ≠ [] := by
      intro he
      rw [he] at hlen
      simp at hlen
    have htail : gs.getLastD [] = (splitOnChar sep b).getLastD [] := by
      rw [← ih, hs, List.getLastD_cons]
      exact (getLastD_of_ne_nil hgs g []).symm
    rw [List.cons_append, splitOnChar_cons_eq hs]
    by_cases hc : x = sep
    · rw [if_pos hc, List.getLastD_cons, List.getLastD_cons, ← htail]
      exact (getLastD_of_ne_nil hgs [] g).symm
    · rw [if_neg hc, List.getLastD_cons, ← htail]
      exact getLastD_of_ne_nil hgs (x :: g) []

theorem basenameChars_join {d n : List Char} (h : '/' ∉ n) :
    basenameChars (d ++ '/' :: n) = n := by
  rw [basenameChars, splitOnChar_getLastD_append, splitOnChar_no_sep h]
  rfl

/-! ### Substring lemmas -/

theorem hasPre_refl_append (s t : List Char) : hasPre s (s ++ t) = true := by
  induction s with
  | nil => rfl
  | cons c cs ih => simp [hasPre, ih]

theorem containsSub_of_hasPre {sub l : List Char} (h : hasPre sub l = true) :
    containsSub sub l = true := by
  cases l with
  | nil =>
    cases sub with
    | nil => rfl
    | cons c cs => exact absurd h (by simp [hasPre])
  | cons c rest => simp [containsSub, h]

theorem containsSub_append (a sub b : List Char) :
    containsSub sub (a ++ (sub ++ b)) = true := by
  induction a with
  | nil => exact containsSub_of_hasPre (hasPre_refl_append sub b)
  | cons c a2 ih =>
    rw [List.cons_append, containsSub]
    simp [ih]

/-! ### Parsing the generated checkpoint names -/

theorem natDigits_not_mem {n : Nat} {c : Char} (hc : isDig c = false) : c ∉ natDigits n := by
  intro hm
  have hall := natDigits_all_dig n
  rw [List.all_eq_true] at hall
  have := hall c hm
  rw [hc] at this
  exact absurd this (by simp)

theorem mem_trimWs {cs : List Char} {c : Char} (h : c ∈ trimWs cs) : c ∈ cs := by
  rw [trimWs] at h
  rw [List.mem_reverse] at h
  have hs1 : ((cs.dropWhile isWs).reverse.dropWhile isWs).Sublist
      ((cs.dropWhile isWs).reverse) := List.dropWhile_sublist isWs
  have h1 := hs1.mem h
  rw [List.mem_reverse] at h1
  exact (List.dropWhile_sublist isWs).mem h1

theorem pyIntChars_nonneg_of_no_dash {cs : List Char} (h : '-' ∉ cs) {i : Int}
    (hp : pyIntChars cs = some i) : 0 ≤ i := by
  cases ht : trimWs cs with
  | nil =>
    rw [pyIntChars, ht] at hp
    simp at hp
  | cons c0 r =>
    have hc0 : c0 ∈ cs := mem_trimWs (ht ▸ List.mem_cons_self c0 r)
    have hne : c0 ≠ '-' := fun he => h (he ▸ hc0)
    rw [pyIntChars, ht] at hp
    dsimp only at hp
    rw [if_neg hne] at hp
    by_cases hplus : c0 = '+'
    · rw [if_pos hplus] at hp
      obtain ⟨n, -, hni⟩ := Option.map_eq_some'.mp hp
      omega
    · rw [if_neg hplus] at hp
      obtain ⟨n, -, hni⟩ := Option.map_eq_some'.mp hp
      omega

theorem getStepsAndCount_nonneg {f : String} {s c : Int}
    (h : getStepsAndCount f = some (s, c)) : 0 ≤ s ∧ 0 ≤ c := by
  rw [getStepsAndCount] at h
  set parts := splitOnChar '-' (basenameChars f.data) with hparts
  cases h1 : parts.get? 1 with
  | none => rw [h1] at h; simp at h
  | some p1 =>
    cases h2 : parts.get? 2 with
    | none => rw [h1, h2] at h; simp at h
    | some p2 =>
      rw [h1, h2] at h
      dsimp only at h
      have hm1 : p1 ∈ parts := List.get?_mem h1
      have hm2 : p2 ∈ parts := List.get?_mem h2
      have hd1 : '-' ∉ p1 := splitOnChar_mem_no_sep p1 hm1
      have hd2 : '-' ∉ p2 := splitOnChar_mem_no_sep p2 hm2
      cases hi1 : pyIntChars p1 with
      | none => rw [hi1] at h; simp at h
      | some i1 =>
        cases hi2 : pyIntChars p2 with
        | none => rw [hi1, hi2] at h; simp at h
        | some i2 =>
          rw [hi1, hi2] at h
          dsimp only at h
          have hinj := Option.some.inj h
          have hs : i1 = s := congrArg Prod.fst hinj
          have hc : i2 = c := congrArg Prod.snd hinj
          exact ⟨hs ▸ pyIntChars_nonneg_of_no_dash hd1 hi1,
            hc ▸ pyIntChars_nonneg_of_no_dash hd2 hi2⟩

theorem intStr_nonneg {i : Int} (h : 0 ≤ i) : intStr i = ⟨natDigits i.toNat⟩ := by
  rw [intStr, if_neg (by omega)]

theorem intStr_neg {i : Int} (h : i < 0) : (intStr i).data = '-' :: natDigits i.natAbs := by
  rw [intStr, if_pos h]
  rfl

theorem pathJoin_data (d n : String) : (pathJoin d n).data = d.data ++ '/' :: n.data := by
  have hsl : ("/" : String).data = ['/'] := rfl
  rw [pathJoin, String.data_append, String.data_append, hsl, List.append_assoc,
    List.singleton_append]

theorem ckptName_data_nonneg {s c : Int} (hs : 0 ≤ s) (hc : 0 ≤ c) :
    (ckptName s c).data =
      "checkpoint".data ++ '-' :: (natDigits s.toNat ++ '-' :: natDigits c.toNat) := by
  have htag : ("checkpoint-" : String).data = "checkpoint".data ++ ['-'] := rfl
  have hdash : ("-" : String).data = ['-'] := rfl
  rw [ckptName, intStr_nonneg hs, intStr_nonneg hc, String.data_append, String.data_append,
    String.data_append, htag, hdash]
  simp [List.append_assoc]

theorem ckptName_data_negc {s c : Int} (hs : 0 ≤ s) (hc : c < 0) :
    (ckptName s c).data =
      "checkpoint".data ++ '-' :: (natDigits s.toNat ++ '-' :: ('-' :: natDigits c.natAbs)) := by
  have htag : ("checkpoint-" : String).data = "checkpoint".data ++ ['-'] := rfl
  have hdash : ("-" : String).data = ['-'] := rfl
  rw [ckptName, intStr_nonneg hs, String.data_append, String.data_append,
    String.data_append, htag, hdash, intStr_neg hc]
  simp [List.append_assoc]

theorem getStepsAndCount_join {d : String} {s c : Int} (hs : 0 ≤ s) (hc : 0 ≤ c) :
    getStepsAndCount (pathJoin d (ckptName s c)) = some (s, c) := by
  have hname : '/' ∉ (ckptName s c).data := by
    rw [ckptName_data_nonneg hs hc]
    intro hm
    rcases List.mem_append.mp hm with hm | hm
    · exact absurd hm (by decide)
    · rcases List.mem_cons.mp hm with he | hm
      · exact absurd he (by decide)
      · rcases List.mem_append.mp hm with hm | hm
        · exact natDigits_not_mem (by decide) hm
        · rcases List.mem_cons.mp hm with he | hm
          · exact absurd he (by decide)
          · exact natDigits_not_mem (by decide) hm
  have hbase : basenameChars (pathJoin d (ckptName s c)).data = (ckptName s c).data := by
    rw [pathJoin_data]
    exact basenameChars_join hname
  have hsplit : splitOnChar '-' (basenameChars (pathJoin d (ckptName s c)).data)
      = ["checkpoint".data, natDigits s.toNat, natDigits c.toNat] := by
    rw [hbase, ckptName_data_nonneg hs hc,
      splitOnChar_append _ (by decide),
      splitOnChar_append _ (natDigits_not_mem (by decide)),
      splitOnChar_no_sep (natDigits_not_mem (by decide))]
  have e1 : pyIntChars (natDigits s.toNat) = some s := by
    rw [pyIntChars_natDigits, Int.toNat_of_nonneg hs]
  have e2 : pyIntChars (natDigits c.toNat) = some c := by
    rw [pyIntChars_natDigits, Int.toNat_of_nonneg hc]
  rw [getStepsAndCount]
  rw [hsplit]
  dsimp only [List.get?]
  rw [e1, e2]

theorem getStepsAndCount_join_neg {d : String} {s c : Int} (hs : 0 ≤ s) (hc : c < 0) :
    getStepsAndCount (pathJoin d (ckptName s c)) = none := by
  have hname : '/' ∉ (ckptName s c).data := by
    rw [ckptName_data_negc hs hc]
    intro hm
    rcases List.mem_append.mp hm with hm | hm
    · exact absurd hm (by decide)
    · rcases List.mem_cons.mp hm with he | hm
      · exact absurd he (by decide)
      · rcases List.mem_append.mp hm with hm | hm
        · exact natDigits_not_mem (by decide) hm
        · rcases List.mem_cons.mp hm with he | hm
          · exact absurd he (by decide)
          · rcases List.mem_cons.mp hm with he | hm
            · exact absurd he (by decide)
            · exact natDigits_not_mem (by decide) hm
  have hbase : basenameChars (pathJoin d (ckptName s c)).data = (ckptName s c).data := by
    rw [pathJoin_data]
    exact basenameChars_join hname
  have hsplit : splitOnChar '-' (basenameChars (pathJoin d (ckptName s c)).data)
      = ["checkpoint".data, natDigits s.toNat, [], natDigits c.natAbs] := by
    rw [hbase, ckptName_data_negc hs hc,
      splitOnChar_append _ (by decide),
      splitOnChar_append _ (natDigits_not_mem (by decide))]
    have h0 : splitOnChar '-' ('-' :: natDigits c.natAbs)
        = [] :: splitOnChar '-' (natDigits c.natAbs) := by
      have h0a : splitOnChar '-' (([] : List Char) ++ '-' :: natDigits c.natAbs)
          = ([] : List Char) :: splitOnChar '-' (natDigits c.natAbs) :=
        splitOnChar_append (natDigits c.natAbs) (by simp)
      simpa using h0a
    rw [h0, splitOnChar_no_sep (natDigits_not_mem (by decide))]
  rw [getStepsAndCount]
  rw [hsplit]
  dsimp only [List.get?]
  have hnil : pyIntChars [] = none := rfl
  rw [hnil]
  cases pyIntChars (natDigits s.toNat) <;> rfl

theorem strContains_join_ckptName (d : String) (s c : Int) :
    strContains (pathJoin d (ckptName s c)) ckptTag = true := by
  have hdash : ("-" : String).data = ['-'] := rfl
  have hname : (ckptName s c).data
      = ckptTag.data ++ ((intStr s).data ++ '-' :: (intStr c).data) := by
    rw [ckptName, String.data_append, String.data_append, String.data_append, hdash]
    have htag : ckptTag.data = ("checkpoint-" : String).data := rfl
    rw [htag]
    simp [List.append_assoc]
  rw [strContains, pathJoin_data, hname]
  have hform : d.data ++ '/' :: (ckptTag.data ++ ((intStr s).data ++ '-' :: (intStr c).data))
      = (d.data ++ ['/']) ++ (ckptTag.data ++ ((intStr s).data ++ '-' :: (intStr c).data)) := by
    simp
  rw [hform]
  exact containsSub_append _ _ _

/-! ### Discovery scan characterisation -/

theorem keyCount_eq {p : String} {s c : Int} (h : getStepsAndCount p = some (s, c)) :
    keyCount p = c := by
  simp [keyCount, embCount, h]

theorem mem_matchedPaths {d : String} {fs : List DirEntry} {p : String} :
    p ∈ matchedPaths d fs ↔
      ∃ e, e ∈ fs ∧ matchesCkpt d e = true ∧ pathJoin d e.name = p := by
  simp [matchedPaths, List.mem_map, List.mem_filter, and_assoc]

theorem scan_eq_error_iff {d : String} {fs : List DirEntry} {e : Err} :
    getCkptFilePaths d fs = .error e ↔
      e = .corruptName ∧ ∃ p ∈ matchedPaths d fs, getStepsAndCount p = none := by
  rw [getCkptFilePaths]
  by_cases hall : (matchedPaths d fs).all (fun f => (getStepsAndCount f).isSome) = true
  · rw [if_pos hall]
    constructor
    · intro h; exact Except.noConfusion h
    · rintro ⟨-, p, hp, hnone⟩
      rw [List.all_eq_true] at hall
      have := hall p hp
      rw [hnone] at this
      exact absurd this (by simp)
  · rw [if_neg hall]
    constructor
    · intro h
      refine ⟨(Except.error.inj h).symm, ?_⟩
      rw [List.all_eq_true] at hall
      push_neg at hall
      obtain ⟨p, hp, hns⟩ := hall
      exact ⟨p, hp, Option.not_isSome_iff_eq_none.mp (by simpa using hns)⟩
    · rintro ⟨he, -⟩
      rw [he]

theorem scan_ok_facts {d : String} {fs : List DirEntry} {l : List String}
    (h : getCkptFilePaths d fs = .ok l) :
    l.Perm (matchedPaths d fs) ∧ sortedByCount l ∧
      ∀ p ∈ l, (getStepsAndCount p).isSome = true := by
  rw [getCkptFilePaths] at h
  by_cases hall : (matchedPaths d fs).all (fun f => (getStepsAndCount f).isSome) = true
  · rw [if_pos hall] at h
    have hl : l = List.insertionSort (fun a b => keyCount a ≤ keyCount b) (matchedPaths d fs) :=
      (Except.ok.inj h).symm
    subst hl
    haveI hTot : IsTotal String (fun a b => keyCount a ≤ keyCount b) :=
      ⟨fun a b => le_total (keyCount a) (keyCount b)⟩
    haveI hTrans : IsTrans String (fun a b => keyCount a ≤ keyCount b) :=
      ⟨fun _ _ _ hab hbc => le_trans hab hbc⟩
    refine ⟨List.perm_insertionSort _ _, List.sorted_insertionSort _ _, ?_⟩
    intro p hp
    rw [List.all_eq_true] at hall
    exact hall p ((List.perm_insertionSort _ _).mem_iff.mp hp)
  · rw [if_neg hall] at h
    exact Except.noConfusion h

theorem getLastD_mem {α : Type} : ∀ {l : List α}, l ≠ [] → ∀ d, l.getLastD d ∈ l := by
  intro l
  induction l with
  | nil => intro h; exact absurd rfl h
  | cons x xs ih =>
    intro _ d
    rw [List.getLastD_cons]
    cases hxs : xs with
    | nil => simp
    | cons y ys =>
      have hx := ih (by simp [hxs]) x
      rw [hxs] at hx
      exact List.mem_cons_of_mem x hx

theorem getLast?_eq_getLastD {α : Type} [Inhabited α] {l : List α} (h : l ≠ []) :
    l.getLast? = some (l.getLastD default) := by
  induction l with
  | nil => exact absurd rfl h
  | cons x xs ih =>
    rw [List.getLastD_cons]
    cases hxs : xs with
    | nil => simp
    | cons y ys =>
      rw [List.getLast?_cons_cons, ← hxs, ih (by simp [hxs])]
      rw [hxs]
      rw [getLastD_of_ne_nil (by simp) x default]

theorem sorted_le_getLastD : ∀ {l : List String}, sortedByCount l →
    ∀ f ∈ l, keyCount f ≤ keyCount (l.getLastD "") := by
  intro l
  induction l with
  | nil => intro _ f hf; simp at hf
  | cons x xs ih =>
    intro hs f hf
    rw [List.getLastD_cons]
    rw [sortedByCount, List.pairwise_cons] at hs
    cases hxs : xs with
    | nil =>
      subst hxs
      rw [List.mem_singleton.mp hf]
      simp
    | cons y ys =>
      subst hxs
      have hlast : (y :: ys).getLastD x = (y :: ys).getLastD "" :=
        getLastD_of_ne_nil (by simp) x ""
      rw [hlast]
      rcases List.mem_cons.mp hf with he | hm
      · subst he
        exact hs.1 _ (getLastD_mem (by simp) "")
      · exact ih hs.2 f hm

/-! ### Eviction loop lemmas -/

theorem osRemove_ok_sublist {d : String} {fs fs2 : List DirEntry} {p : String}
    (h : osRemove d fs p = .ok fs2) : fs2.Sublist fs := by
  rw [osRemove] at h
  by_cases hf : isFileAt d fs p = true
  · rw [if_pos hf] at h
    rw [← Except.ok.inj h]
    exact List.filter_sublist fs
  · rw [if_neg hf] at h
    exact Except.noConfusion h

theorem osRemove_ok_not_file {d : String} {fs fs2 : List DirEntry} {p : String}
    (h : osRemove d fs p = .ok fs2) : isFileAt d fs2 p = false := by
  rw [osRemove] at h
  by_cases hf : isFileAt d fs p = true
  · rw [if_pos hf] at h
    rw [← Except.ok.inj h]
    rw [isFileAt]
    rw [List.any_eq_false]
    intro e he
    have hmem := List.mem_filter.mp he
    have hne := hmem.2
    simp only [Bool.not_eq_true'] at hne
    simp [hne]
  · rw [if_neg hf] at h
    exact Except.noConfusion h

theorem isFileAt_false_of_sublist {d : String} {fs fs2 : List DirEntry} {p : String}
    (hsub : fs2.Sublist fs) (h : isFileAt d fs p = false) : isFileAt d fs2 p = false := by
  rw [isFileAt, List.any_eq_false] at h ⊢
  exact fun e he => h e (hsub.mem he)

theorem evict_sublist : ∀ (ps : List String) (fs : List DirEntry) {r ps2 fs2},
    evict d m ps fs = (r, ps2, fs2) → fs2.Sublist fs := by
  intro ps
  induction ps with
  | nil =>
    intro fs r ps2 fs2 h
    rw [evict] at h
    by_cases h0 : (0 : Int) ≥ m
    · rw [if_pos h0] at h
      simp only [Prod.mk.injEq] at h
      rw [← h.2.2]
    · rw [if_neg h0] at h
      simp only [Prod.mk.injEq] at h
      rw [← h.2.2]
  | cons p rest ih =>
    intro fs r ps2 fs2 h
    rw [evict] at h
    by_cases hlen : ((p :: rest).length : Int) ≥ m
    · rw [if_pos hlen] at h
      cases hrem : osRemove d fs p with
      | ok fsr =>
        rw [hrem] at h
        exact (ih fsr h).trans (osRemove_ok_sublist hrem)
      | error e =>
        rw [hrem] at h
        simp only [Prod.mk.injEq] at h
        rw [← h.2.2]
    · rw [if_neg hlen] at h
      simp only [Prod.mk.injEq] at h
      rw [← h.2.2]

theorem evict_drop : ∀ (ps : List String) (fs : List DirEntry) {r ps2 fs2},
    evict d m ps fs = (r, ps2, fs2) → ∃ k, k ≤ ps.length ∧ ps2 = ps.drop k := by
  intro ps
  induction ps with
  | nil =>
    intro fs r ps2 fs2 h
    rw [evict] at h
    by_cases h0 : (0 : Int) ≥ m
    · rw [if_pos h0] at h
      simp only [Prod.mk.injEq] at h
      exact ⟨0, Nat.le_refl 0, h.2.1.symm⟩
    · rw [if_neg h0] at h
      simp only [Prod.mk.injEq] at h
      exact ⟨0, Nat.le_refl 0, h.2.1.symm⟩
  | cons p rest ih =>
    intro fs r ps2 fs2 h
    rw [evict] at h
    by_cases hlen : ((p :: rest).length : Int) ≥ m
    · rw [if_pos hlen] at h
      cases hrem : osRemove d fs p with
      | ok fsr =>
        rw [hrem] at h
        obtain ⟨k, hk, hdrop⟩ := ih fsr h
        exact ⟨k + 1, by simpa using Nat.succ_le_succ hk, by simpa using hdrop⟩
      | error e =>
        rw [hrem] at h
        simp only [Prod.mk.injEq] at h
        exact ⟨1, by simp, by simpa using h.2.1.symm⟩
    · rw [if_neg hlen] at h
      simp only [Prod.mk.injEq] at h
      exact ⟨0, Nat.zero_le _, h.2.1.symm⟩

theorem evict_ok_facts : ∀ (ps : List String) (fs : List DirEntry) {ps2 fs2},
    evict d m ps fs = (.ok (), ps2, fs2) →
      ((ps2.length : Int) < m ∧
        ∃ k, k ≤ ps.length ∧ ps2 = ps.drop k ∧
          ∀ q ∈ ps.take k, isFileAt d fs2 q = false) := by
  intro ps
  induction ps with
  | nil =>
    intro fs ps2 fs2 h
    rw [evict] at h
    by_cases h0 : (0 : Int) ≥ m
    · rw [if_pos h0] at h
      simp only [Prod.mk.injEq] at h
      exact absurd h.1 (by simp)
    · rw [if_neg h0] at h
      simp only [Prod.mk.injEq] at h
      refine ⟨?_, 0, Nat.le_refl 0, h.2.1.symm, by simp⟩
      rw [← h.2.1]
      simpa using by omega
  | cons p rest ih =>
    intro fs ps2 fs2 h
    rw [evict] at h
    by_cases hlen : ((p :: rest).length : Int) ≥ m
    · rw [if_pos hlen] at h
      cases hrem : osRemove d fs p with
      | ok fsr =>
        rw [hrem] at h
        obtain ⟨hbound, k, hk, hdrop, hdel⟩ := ih fsr h
        refine ⟨hbound, k + 1, by simpa using Nat.succ_le_succ hk, by simpa using hdrop, ?_⟩
        intro q hq
        rw [List.take_succ_cons] at hq
        rcases List.mem_cons.mp hq with he | hm
        · subst he
          exact isFileAt_false_of_sublist (evict_sublist rest fsr h)
            (osRemove_ok_not_file hrem)
        · exact hdel q hm
      | error e =>
        rw [hrem] at h
        simp only [Prod.mk.injEq] at h
        exact absurd h.1 (by simp)
    · rw [if_neg hlen] at h
      simp only [Prod.mk.injEq] at h
      refine ⟨?_, 0, Nat.zero_le _, h.2.1.symm, by simp⟩
      rw [← h.2.1]
      omega

/-! ### Unfolding lemmas for save -/

theorem save_ok_unfold {ck : Checkpoint} {w : World} {b : Bool} {c : Int}
    {ck2 : Checkpoint} {w2 : World}
    (h : Checkpoint.save ck w b c = (.ok (), ck2, w2)) :
    b = true ∧ ∃ ps2 fs2,
      evict ck.dirPath ck.maxToKeep ck.filePaths w.entries = (.ok (), ps2, fs2) ∧
      ck2 = { ck with
                filePaths := ps2 ++ [pathJoin ck.dirPath (ckptName ck.steps c)]
                count := c } ∧
      w2 = { w with entries := writeFile fs2 (ckptName ck.steps c) } := by
  rcases hev : evict ck.dirPath ck.maxToKeep ck.filePaths w.entries with ⟨r, ps2, fs2⟩
  simp only [Checkpoint.save] at h
  rw [hev] at h
  cases r with
  | error e =>
    dsimp only at h
    simp only [Prod.mk.injEq] at h
    exact absurd h.1 (by simp)
  | ok u =>
    cases u
    dsimp only at h
    cases b with
    | false =>
      rw [if_neg (by simp)] at h
      simp only [Prod.mk.injEq] at h
      exact absurd h.1 (by simp)
    | true =>
      rw [if_pos rfl] at h
      simp only [Prod.mk.injEq] at h
      exact ⟨rfl, ps2, fs2, rfl, h.2.1.symm, h.2.2.symm⟩

theorem save_fail_state {ck : Checkpoint} {w : World} {c : Int} :
    (∃ e, (Checkpoint.save ck w false c).1 = .error e) ∧
      (Checkpoint.save ck w false c).2.1.count = ck.count ∧
      (Checkpoint.save ck w false c).2.1.steps = ck.steps ∧
      (Checkpoint.save ck w false c).2.1.maxToKeep = ck.maxToKeep ∧
      (Checkpoint.save ck w false c).2.1.dirPath = ck.dirPath ∧
      ∃ k, k ≤ ck.filePaths.length ∧
        (Checkpoint.save ck w false c).2.1.filePaths = ck.filePaths.drop k := by
  rcases hev : evict ck.dirPath ck.maxToKeep ck.filePaths w.entries with ⟨r, ps2, fs2⟩
  obtain ⟨k, hk, hdrop⟩ := evict_drop _ _ hev
  simp only [Checkpoint.save]
  rw [hev]
  cases r with
  | error e =>
    dsimp only
    exact ⟨⟨e, rfl⟩, rfl, rfl, rfl, rfl, k, hk, hdrop⟩
  | ok u =>
    dsimp only
    rw [if_neg (by simp)]
    exact ⟨⟨.persistenceFailure, rfl⟩, rfl, rfl, rfl, rfl, k, hk, hdrop⟩

/-- Claim C1: for every manager state, a successful `save(model, count)` runs
the eviction loop before the new file is written — the loop drops a prefix of
`filePaths` (index 0 first), deleting each dropped file from disk, until the
length is strictly below `maxToKeep` — and afterwards the tracked list is the
evicted remainder plus the new path, so its length is at most `maxToKeep`. -/
theorem claim_C1 (ck : Checkpoint) (w : World) (b : Bool) (c : Int)
    (ck2 : Checkpoint) (w2 : World)
    (h : Checkpoint.save ck w b c = (.ok (), ck2, w2)) :
    (ck2.filePaths.length : Int) ≤ ck.maxToKeep ∧
      ∃ k fs2, k ≤ ck.filePaths.length ∧
        ck2.filePaths = ck.filePaths.drop k ++ [pathJoin ck.dirPath (ckptName ck.steps c)] ∧
        evict ck.dirPath ck.maxToKeep ck.filePaths w.entries =
          (.ok (), ck.filePaths.drop k, fs2) ∧
        ((ck.filePaths.drop k).length : Int) < ck.maxToKeep ∧
        ∀ q ∈ ck.filePaths.take k, isFileAt ck.dirPath fs2 q = false := by
  obtain ⟨-, ps2, fs2, hev, hck2, -⟩ := save_ok_unfold h
  obtain ⟨hbound, k, hk, hdrop, hdel⟩ := evict_ok_facts _ _ hev
  subst hdrop
  constructor
  · rw [hck2]
    simp only [List.length_append, List.length_singleton]
    push_cast
    omega
  · exact ⟨k, fs2, hk, by rw [hck2], hev, hbound, hdel⟩

/-- Claim C1 witness: a concrete save at capacity `maxToKeep = 1` evicts the
old checkpoint and ends with a single tracked file. -/
theorem claim_C1_witness :
    ((( ⟨"/d", 1000, 1, ["/d/checkpoint-1000-2"], 2⟩ : Checkpoint).filePaths.length : Int)
      ≤ (( ⟨"/d", 1000, 1, ["/d/checkpoint-1000-1"], 1⟩ : Checkpoint).maxToKeep)) :=
  (claim_C1 ⟨"/d", 1000, 1, ["/d/checkpoint-1000-1"], 1⟩
    ⟨true, [⟨"checkpoint-1000-1", true⟩]⟩ true 2
    ⟨"/d", 1000, 1, ["/d/checkpoint-1000-2"], 2⟩
    ⟨true, [⟨"checkpoint-1000-2", true⟩]⟩ rfl).1

/-- Claim C4 counterexample: with `maxToKeep = 1` and one tracked checkpoint,
a `save` whose model write fails still pops (and deletes) the evicted entry
before the failure, so `filePaths` IS updated by the failing call. -/
theorem claim_C4_counterexample :
    (Checkpoint.save ⟨"/d", 1000, 1, ["/d/checkpoint-1000-1"], 1⟩
        ⟨true, [⟨"checkpoint-1000-1", true⟩]⟩ false 2).1 = .error .persistenceFailure ∧
    (Checkpoint.save ⟨"/d", 1000, 1, ["/d/checkpoint-1000-1"], 1⟩
        ⟨true, [⟨"checkpoint-1000-1", true⟩]⟩ false 2).2.1.filePaths = [] ∧
    ( ⟨"/d", 1000, 1, ["/d/checkpoint-1000-1"], 1⟩ : Checkpoint).filePaths ≠ [] :=
  ⟨rfl, rfl, by simp⟩

/-- Claim C4 (amended): when the model collaborator's `save` raises, the call
fails, `count` is not updated and the new path is not appended; `filePaths`
keeps only the suffix left by the eviction loop that already ran (the dropped
prefix was already deleted from disk), so it still matches the disk state. -/
theorem claim_C4_amended (ck : Checkpoint) (w : World) (c : Int) :
    (∃ e, (Checkpoint.save ck w false c).1 = .error e) ∧
      (Checkpoint.save ck w false c).2.1.count = ck.count ∧
      ∃ k, k ≤ ck.filePaths.length ∧
        (Checkpoint.save ck w false c).2.1.filePaths = ck.filePaths.drop k :=
  ⟨save_fail_state.1, save_fail_state.2.1, save_fail_state.2.2.2.2.2⟩

/-! ### Purge loop lemmas -/

theorem purgeLoop_removed {d : String} : ∀ (ps : List String) (fs : List DirEntry),
    ps.Nodup → (∀ p ∈ ps, isFileAt d fs p = true) → (purgeLoop d ps fs).1 = ps := by
  intro ps
  induction ps with
  | nil => intro fs _ _; rfl
  | cons p rest ih =>
    intro fs hnd hall
    rw [purgeLoop, if_pos (hall p (List.mem_cons_self p rest))]
    dsimp only
    congr 1
    apply ih
    · exact (List.nodup_cons.mp hnd).2
    · intro q hq
      have hqf := hall q (List.mem_cons_of_mem p hq)
      have hqp : q ≠ p := fun he => (List.nodup_cons.mp hnd).1 (he ▸ hq)
      rw [isFileAt, List.any_eq_true] at hqf ⊢
      obtain ⟨e, he, hprop⟩ := hqf
      refine ⟨e, ?_, hprop⟩
      rw [List.mem_filter]
      refine ⟨he, ?_⟩
      simp only [Bool.and_eq_true, beq_iff_eq] at hprop
      simp [hprop.1, hqp]

theorem purgeLoop_entries_mem {d : String} : ∀ (ps : List String) (fs : List DirEntry)
    (e : DirEntry),
    e ∈ (purgeLoop d ps fs).2 ↔ e ∈ fs ∧ pathJoin d e.name ∉ (purgeLoop d ps fs).1 := by
  intro ps
  induction ps with
  | nil => intro fs e; simp [purgeLoop]
  | cons p rest ih =>
    intro fs e
    rw [purgeLoop]
    by_cases hf : isFileAt d fs p = true
    · rw [if_pos hf]
      dsimp only
      rw [ih]
      constructor
      · rintro ⟨hmem, hnot⟩
        obtain ⟨hfs, hne⟩ := List.mem_filter.mp hmem
        simp only [Bool.not_eq_true', beq_eq_false_iff_ne, ne_eq] at hne
        refine ⟨hfs, ?_⟩
        intro hcon
        rcases List.mem_cons.mp hcon with he | hm
        · exact hne he
        · exact hnot hm
      · rintro ⟨hfs, hnot⟩
        have hne : pathJoin d e.name ≠ p := fun he => hnot (he ▸ List.mem_cons_self _ _)
        refine ⟨List.mem_filter.mpr ⟨hfs, by simp [hne]⟩, ?_⟩
        exact fun hm => hnot (List.mem_cons_of_mem p hm)
    · rw [if_neg hf]
      exact ih fs e

theorem pathJoin_inj {d a b : String} (h : pathJoin d a = pathJoin d b) : a = b := by
  have hdata := congrArg String.data h
  rw [pathJoin_data, pathJoin_data] at hdata
  have h2 := List.append_cancel_left hdata
  exact String.ext (List.cons.inj h2).2

theorem matchedPaths_nodup {d : String} {fs : List DirEntry}
    (hnd : (fs.map DirEntry.name).Nodup) : (matchedPaths d fs).Nodup := by
  have h1 : ((fs.filter (matchesCkpt d)).map DirEntry.name).Nodup :=
    List.Nodup.sublist (List.Sublist.map DirEntry.name (List.filter_sublist fs)) hnd
  have h2 : matchedPaths d fs =
      ((fs.filter (matchesCkpt d)).map DirEntry.name).map (fun n => pathJoin d n) := by
    rw [matchedPaths, List.map_map]
    rfl
  rw [h2]
  exact h1.map fun x y hxy => pathJoin_inj hxy

theorem scan_paths_are_files {d : String} {fs : List DirEntry} {l : List String}
    (h : getCkptFilePaths d fs = .ok l) : ∀ p ∈ l, isFileAt d fs p = true := by
  intro p hp
  have hperm := (scan_ok_facts h).1
  have hm : p ∈ matchedPaths d fs := hperm.mem_iff.mp hp
  obtain ⟨e, he, hmat, hpe⟩ := mem_matchedPaths.mp hm
  rw [isFileAt, List.any_eq_true]
  refine ⟨e, he, ?_⟩
  rw [matchesCkpt, Bool.and_eq_true] at hmat
  simp [hpe, hmat.1]

theorem mem_matched_iff_matches {d : String} {fs : List DirEntry}
    (hnd : (fs.map DirEntry.name).Nodup) {e : DirEntry} (he : e ∈ fs) :
    pathJoin d e.name ∈ matchedPaths d fs ↔ matchesCkpt d e = true := by
  constructor
  · intro hm
    obtain ⟨e2, he2, hmat2, hpe2⟩ := mem_matchedPaths.mp hm
    have hname : e2.name = e.name := pathJoin_inj hpe2
    have : e2 = e := List.inj_on_of_nodup_map hnd he2 he hname
    exact this ▸ hmat2
  · intro hmat
    exact mem_matchedPaths.mpr ⟨e, he, hmat, rfl⟩

/-- Claim C7: `purge` on an existing directory whose scan succeeds deletes
every matching regular file, returns exactly the scanned (hence removed)
paths, clears `filePaths` and resets `count` to 0; the surviving entries are
exactly the non-matching ones, and with no matching file it returns `[]`.
The listing is assumed to have distinct entry names, as any real directory
does. -/
theorem claim_C7 (ck : Checkpoint) (w : World) (removed : List String)
    (ck2 : Checkpoint) (w2 : World) (l : List String)
    (hnd : (w.entries.map DirEntry.name).Nodup)
    (hscan : getCkptFilePaths ck.dirPath w.entries = .ok l)
    (h : Checkpoint.purge ck w = .ok (removed, ck2, w2)) :
    removed = l ∧ ck2 = { ck with filePaths := [], count := 0 } ∧
      w2.dirExists = w.dirExists ∧
      (∀ e, e ∈ w2.entries ↔ e ∈ w.entries ∧ matchesCkpt ck.dirPath e = false) ∧
      (matchedPaths ck.dirPath w.entries = [] → removed = []) := by
  rw [Checkpoint.purge] at h
  cases hde : w.dirExists with
  | false =>
    rw [hde] at h
    simp only [Bool.not_false, if_pos] at h
    exact Except.noConfusion h
  | true =>
    rw [hde] at h
    simp only [Bool.not_true] at h
    rw [if_neg (by simp)] at h
    rw [hscan] at h
    dsimp only at h
    have hinj := Except.ok.inj h
    have hrem : removed = (purgeLoop ck.dirPath l w.entries).1 :=
      (congrArg (fun t => t.1) hinj).symm
    have hck2 : ck2 = { ck with filePaths := [], count := 0 } :=
      (congrArg (fun t => t.2.1) hinj).symm
    have hw2 : w2 = { dirExists := true, entries := (purgeLoop ck.dirPath l w.entries).2 } :=
      (congrArg (fun t => t.2.2) hinj).symm
    have hlnd : l.Nodup := ((scan_ok_facts hscan).1.nodup_iff).mpr (matchedPaths_nodup hnd)
    have hfiles := scan_paths_are_files hscan
    have hremoved : (purgeLoop ck.dirPath l w.entries).1 = l :=
      purgeLoop_removed l w.entries hlnd hfiles
    refine ⟨hrem.trans hremoved, hck2, by rw [hw2], ?_, ?_⟩
    · intro e
      rw [hw2]
      show e ∈ (purgeLoop ck.dirPath l w.entries).2 ↔ _
      rw [purgeLoop_entries_mem, hremoved]
      constructor
      · rintro ⟨hfs, hne⟩
        refine ⟨hfs, ?_⟩
        rw [Bool.eq_false_iff]
        intro hmat
        exact hne (((scan_ok_facts hscan).1.mem_iff).mpr
          ((mem_matched_iff_matches hnd hfs).mpr hmat))
      · rintro ⟨hfs, hmat⟩
        refine ⟨hfs, ?_⟩
        intro hmem
        have := (mem_matched_iff_matches hnd hfs).mp
          (((scan_ok_facts hscan).1.mem_iff).mp hmem)
        rw [hmat] at this
        exact Bool.noConfusion this
    · intro hempty
      have : l = [] := List.Perm.eq_nil (hempty ▸ (scan_ok_facts hscan).1)
      rw [hrem.trans hremoved, this]

/-- Claim C7 witness: purging a directory with one matching file and one
foreign file removes exactly the matching one. -/
theorem claim_C7_witness :
    (["/d/checkpoint-5-10"] : List String) = ["/d/checkpoint-5-10"] ∧
      ( ⟨"/d", 5, 1, [], 0⟩ : Checkpoint) =
        { ( ⟨"/d", 5, 1, ["/d/checkpoint-5-10"], 10⟩ : Checkpoint) with
            filePaths := ([] : List String)
            count := (0 : Int) } :=
  ⟨(claim_C7 ⟨"/d", 5, 1, ["/d/checkpoint-5-10"], 10⟩
      ⟨true, [⟨"checkpoint-5-10", true⟩, ⟨"x", true⟩]⟩
      ["/d/checkpoint-5-10"] ⟨"/d", 5, 1, [], 0⟩
      ⟨true, [⟨"x", true⟩]⟩ ["/d/checkpoint-5-10"]
      (by simp) rfl rfl).1,
    (claim_C7 ⟨"/d", 5, 1, ["/d/checkpoint-5-10"], 10⟩
      ⟨true, [⟨"checkpoint-5-10", true⟩, ⟨"x", true⟩]⟩
      ["/d/checkpoint-5-10"] ⟨"/d", 5, 1, [], 0⟩
      ⟨true, [⟨"x", true⟩]⟩ ["/d/checkpoint-5-10"]
      (by simp) rfl rfl).2.1⟩

/-- Claim C8: `populate` fails with `NotRestored` exactly when `filePaths` is
empty; otherwise the path handed to the model's `load` is exactly the last
entry of `filePaths` (the method reads the manager and never writes it). -/
theorem claim_C8 (ck : Checkpoint) :
    (Checkpoint.populate ck = .error .notRestored ↔ ck.filePaths = []) ∧
    ∀ p, Checkpoint.populate ck = .ok p ↔ ck.filePaths.getLast? = some p := by
  rw [Checkpoint.populate]
  cases hl : ck.filePaths.getLast? with
  | none =>
    have hnil : ck.filePaths = [] := by
      cases hfp : ck.filePaths with
      | nil => rfl
      | cons x xs =>
        rw [hfp] at hl
        rw [getLast?_eq_getLastD (by simp)] at hl
        exact Option.noConfusion hl
    simp [hnil]
  | some p0 =>
    have hne : ck.filePaths ≠ [] := by
      intro he
      rw [he] at hl
      exact Option.noConfusion hl
    dsimp only
    constructor
    · constructor
      · intro hcon; exact absurd hcon (by simp)
      · intro hcon; exact absurd hcon hne
    · intro p
      constructor
      · intro hp
        exact Except.ok.inj hp ▸ rfl
      · intro hp
        rw [Option.some.inj hp]

/-- Claim C8 witness: with one tracked path, populate hands that path over. -/
theorem claim_C8_witness :
    Checkpoint.populate ⟨"/d", 5, 1, ["/d/checkpoint-5-10"], 10⟩ =
      .ok "/d/checkpoint-5-10" :=
  ((claim_C8 ⟨"/d", 5, 1, ["/d/checkpoint-5-10"], 10⟩).2 "/d/checkpoint-5-10").mpr rfl

theorem checkPositive_iff (vals : List Int) : checkPositive vals = true ↔ ∀ v ∈ vals, 0 < v := by
  simp [checkPositive, List.all_eq_true]

/-- Claim C9: construction and both setters reject non-positive `steps` or
`maxToKeep` with `InvalidArgument` (producing no changed state); with positive
values construction succeeds with empty `filePaths`, `count = 0`, an
untouched listing, and the directory existing afterwards whether or not it
existed before (idempotent `makedirs`). -/
theorem claim_C9 (d : String) (s m v : Int) (w : World) (ck : Checkpoint) :
    ((s ≤ 0 ∨ m ≤ 0) → Checkpoint.init d s m w = .error .invalidArgument) ∧
    (0 < s → 0 < m →
      Checkpoint.init d s m w = .ok (⟨d, s, m, [], 0⟩, ⟨true, w.entries⟩)) ∧
    (v ≤ 0 → ck.setSteps v = .error .invalidArgument ∧
      ck.setMaxToKeep v = .error .invalidArgument) ∧
    (0 < v → ck.setSteps v = .ok { ck with steps := v } ∧
      ck.setMaxToKeep v = .ok { ck with maxToKeep := v }) := by
  refine ⟨?_, ?_, ?_, ?_⟩
  · intro hbad
    rw [Checkpoint.init, if_neg]
    intro hpos
    rw [checkPositive_iff] at hpos
    rcases hbad with hb | hb
    · exact absurd (hpos s (by simp)) (by omega)
    · exact absurd (hpos m (by simp)) (by omega)
  · intro hs hm
    rw [Checkpoint.init, if_pos]
    rw [checkPositive_iff]
    intro x hx
    rcases List.mem_cons.mp hx with he | hx
    · omega
    · rcases List.mem_cons.mp hx with he | hx
      · omega
      · simp at hx
  · intro hbad
    constructor
    · rw [Checkpoint.setSteps, if_neg]
      intro hpos
      rw [checkPositive_iff] at hpos
      exact absurd (hpos v (by simp)) (by omega)
    · rw [Checkpoint.setMaxToKeep, if_neg]
      intro hpos
      rw [checkPositive_iff] at hpos
      exact absurd (hpos v (by simp)) (by omega)
  · intro hv
    constructor
    · rw [Checkpoint.setSteps, if_pos]
      rw [checkPositive_iff]
      intro x hx
      rcases List.mem_cons.mp hx with he | hx
      · omega
      · simp at hx
    · rw [Checkpoint.setMaxToKeep, if_pos]
      rw [checkPositive_iff]
      intro x hx
      rcases List.mem_cons.mp hx with he | hx
      · omega
      · simp at hx

/-- Claim C9 witness: a concrete valid construction on a pre-existing
directory, and a concrete rejected mutation. -/
theorem claim_C9_witness :
    Checkpoint.init "/d" 1000 1 ⟨true, [⟨"x", true⟩]⟩ =
      .ok (⟨"/d", 1000, 1, [], 0⟩, ⟨true, [⟨"x", true⟩]⟩) ∧
    Checkpoint.setSteps ⟨"/d", 1000, 1, [], 0⟩ 0 = .error .invalidArgument :=
  ⟨(claim_C9 "/d" 1000 1 0 ⟨true, [⟨"x", true⟩]⟩ ⟨"/d", 1000, 1, [], 0⟩).2.1
      (by omega) (by omega),
    ((claim_C9 "/d" 1000 1 0 ⟨true, [⟨"x", true⟩]⟩ ⟨"/d", 1000, 1, [], 0⟩).2.2.1
      (by omega)).1⟩

/-! ### Scan failure propagation -/

theorem scan_error_load {er : Err} {d : String} {w : World} (hde : w.dirExists = true)
    (hsc : getCkptFilePaths d w.entries = .error er) :
    Checkpoint.load d w = .error er := by
  rw [Checkpoint.load, hde]
  rw [if_neg (by simp)]
  rw [hsc]

theorem scan_error_restore {er : Err} {ck : Checkpoint} {w : World}
    (hde : w.dirExists = true)
    (hsc : getCkptFilePaths ck.dirPath w.entries = .error er) :
    Checkpoint.restore ck w = .error er := by
  rw [Checkpoint.restore, hde]
  rw [if_neg (by simp)]
  rw [hsc]

theorem scan_error_purge {er : Err} {ck : Checkpoint} {w : World}
    (hde : w.dirExists = true)
    (hsc : getCkptFilePaths ck.dirPath w.entries = .error er) :
    Checkpoint.purge ck w = .error er := by
  rw [Checkpoint.purge, hde]
  rw [if_neg (by simp)]
  rw [hsc]

/-- Claim C2 counterexample: a directory whose own path contains the tag.
The code's filter tests the absolute path, so the file `foo` — whose NAME does
not contain the tag — is matched and its unparsable name aborts the scan; a
scan filtering on the name alone (the claim's wording) would return no
matches. -/
theorem claim_C2_counterexample :
    getCkptFilePaths "/tmp/checkpoint-run" [⟨"foo", true⟩] = .error .corruptName ∧
    specNameFilterScan "/tmp/checkpoint-run" [⟨"foo", true⟩] = .ok [] ∧
    strContains ("foo" : String) ckptTag = false :=
  ⟨rfl, rfl, rfl⟩

/-- Claim C2 (amended): discovery filters entries to regular files whose
ABSOLUTE PATH contains the tag substring, parses each match's basename on
`'-'` (fields 1 and 2 as integers), aborts the whole scan with
`CorruptCheckpointName` as soon as any match fails to parse, and otherwise
returns the matches sorted ascending by embedded count; `load`, `restore` and
`purge` all propagate the scan failure. -/
theorem claim_C2_amended (d : String) (fs : List DirEntry) :
    (∀ e, e ∈ fs.filter (matchesCkpt d) ↔
      e ∈ fs ∧ (e.isFile = true ∧ strContains (pathJoin d e.name) ckptTag = true)) ∧
    (∀ er, getCkptFilePaths d fs = .error er ↔
      er = .corruptName ∧ ∃ p ∈ matchedPaths d fs, getStepsAndCount p = none) ∧
    (∀ l, getCkptFilePaths d fs = .ok l →
      l.Perm (matchedPaths d fs) ∧ sortedByCount l ∧
        ∀ p ∈ l, (getStepsAndCount p).isSome = true) ∧
    (∀ er ck w, w.dirExists = true → w.entries = fs → ck.dirPath = d →
      getCkptFilePaths d fs = .error er →
        Checkpoint.load d w = .error er ∧ Checkpoint.restore ck w = .error er ∧
        Checkpoint.purge ck w = .error er) := by
  refine ⟨?_, fun er => scan_eq_error_iff, fun l => scan_ok_facts, ?_⟩
  · intro e
    rw [List.mem_filter, matchesCkpt, Bool.and_eq_true]
  · intro er ck w hde hent hdp hsc
    subst hent
    subst hdp
    exact ⟨scan_error_load hde hsc, scan_error_restore hde hsc, scan_error_purge hde hsc⟩

/-- Claim C2 (amended) witness: the scan aborts on the concrete directory of
the counterexample because a matched path fails to parse. -/
theorem claim_C2_witness :
    Err.corruptName = Err.corruptName ∧
      ∃ p ∈ matchedPaths "/tmp/checkpoint-run" [⟨"foo", true⟩],
        getStepsAndCount p = none :=
  ((claim_C2_amended "/tmp/checkpoint-run" [⟨"foo", true⟩]).2.1 Err.corruptName).mp rfl

/-- Claim C3 counterexample: a directory that exists and contains a file
matching the checkpoint tag filter on which `load` neither fails with
`NotFound` nor returns a manager — it raises `CorruptCheckpointName`, a case
the claim's `NotFound`-or-manager dichotomy does not admit. -/
theorem claim_C3_counterexample :
    Checkpoint.load "/d" ⟨true, [⟨"checkpoint-abc-10", true⟩]⟩ = .error .corruptName ∧
    Err.corruptName ≠ Err.notFound ∧
    (Checkpoint.load "/d" ⟨true, [⟨"checkpoint-abc-10", true⟩]⟩).toOption = none :=
  ⟨rfl, by simp, rfl⟩

/-- Claim C3 (amended): `load` fails with `NotFound` when the directory is
missing or the scan finds nothing; it propagates `CorruptCheckpointName` when
a matched name fails to parse; when the scan succeeds non-empty it reads
`(steps, count)` from the checkpoint with the greatest embedded count (the
last of the sorted scan) and, provided that `steps` is positive (the validated
constructor runs), returns a manager with those `steps`, the default
`maxToKeep`, the full sorted scan as `filePaths`, and `count` equal to the
greatest embedded count; an embedded `steps ≤ 0` instead fails with
`InvalidArgument`. -/
theorem claim_C3_amended (d : String) (w : World) :
    (w.dirExists = false → Checkpoint.load d w = .error .notFound) ∧
    (∀ er, w.dirExists = true → getCkptFilePaths d w.entries = .error er →
      Checkpoint.load d w = .error er) ∧
    (w.dirExists = true → getCkptFilePaths d w.entries = .ok [] →
      Checkpoint.load d w = .error .notFound) ∧
    (∀ l s c, w.dirExists = true → getCkptFilePaths d w.entries = .ok l → l ≠ [] →
      getStepsAndCount (l.getLastD "") = some (s, c) →
      ((0 < s → Checkpoint.load d w =
          .ok (⟨d, s, defaultMaxToKeep, l, c⟩, ⟨true, w.entries⟩) ∧
          ∀ f ∈ l, keyCount f ≤ c) ∧
        (s ≤ 0 → Checkpoint.load d w = .error .invalidArgument))) := by
  refine ⟨?_, ?_, ?_, ?_⟩
  · intro hde
    rw [Checkpoint.load, hde]
    rw [if_pos (by simp)]
  · intro er hde hsc
    exact scan_error_load hde hsc
  · intro hde hsc
    rw [Checkpoint.load, hde]
    rw [if_neg (by simp), hsc]
    rfl
  · intro l s c hde hsc hne hparse
    have hload : Checkpoint.load d w =
        (match Checkpoint.init d s defaultMaxToKeep w with
          | .error e => .error e
          | .ok (ck, w2) => .ok ({ ck with filePaths := l, count := c }, w2)) := by
      rw [Checkpoint.load, hde]
      rw [if_neg (by simp), hsc]
      dsimp only
      rw [if_neg (by simp [hne]), hparse]
    constructor
    · intro hs
      constructor
      · rw [hload, Checkpoint.init,
          if_pos ((checkPositive_iff _).mpr (by
            intro x hx
            rcases List.mem_cons.mp hx with he | hx
            · omega
            · rcases List.mem_cons.mp hx with he | hx
              · rw [he]; rw [defaultMaxToKeep]; omega
              · simp at hx))]
      · intro f hf
        have hsorted := (scan_ok_facts hsc).2.1
        have hle := sorted_le_getLastD hsorted f hf
        rw [keyCount_eq hparse] at hle
        exact hle
    · intro hs
      rw [hload, Checkpoint.init, if_neg]
      intro hpos
      rw [checkPositive_iff] at hpos
      exact absurd (hpos s (by simp)) (by omega)

/-- Claim C3 (amended) witness: loading the concrete three-checkpoint
directory of the spec's example yields the sorted paths and `count = 30`. -/
theorem claim_C3_witness :
    Checkpoint.load "/d"
        ⟨true, [⟨"checkpoint-5-10", true⟩, ⟨"checkpoint-5-30", true⟩,
          ⟨"checkpoint-5-20", true⟩]⟩ =
      .ok (⟨"/d", 5, defaultMaxToKeep,
        ["/d/checkpoint-5-10", "/d/checkpoint-5-20", "/d/checkpoint-5-30"], 30⟩,
        ⟨true, [⟨"checkpoint-5-10", true⟩, ⟨"checkpoint-5-30", true⟩,
          ⟨"checkpoint-5-20", true⟩]⟩) :=
  ((claim_C3_amended "/d"
      ⟨true, [⟨"checkpoint-5-10", true⟩, ⟨"checkpoint-5-30", true⟩,
        ⟨"checkpoint-5-20", true⟩]⟩).2.2.2
    ["/d/checkpoint-5-10", "/d/checkpoint-5-20", "/d/checkpoint-5-30"] 5 30
    rfl rfl (by simp) rfl).1 (by omega) |>.1

/-- Claim C10: `save` accepts any integer `count` without validation — a
successful save with a negative count appends a path whose name renders the
negative number (e.g. `checkpoint-1000--5`) and writes that file — and that
name does not parse (field 2 of the split is the empty string), so every
subsequent discovery over a listing holding that file (`load`, `restore`,
`purge`) fails with `CorruptCheckpointName`. -/
theorem claim_C10 (ck : Checkpoint) (w : World) (c : Int) (ck2 : Checkpoint) (w2 : World)
    (hc : c < 0) (hst : 0 ≤ ck.steps)
    (h : Checkpoint.save ck w true c = (.ok (), ck2, w2)) :
    ck2.count = c ∧
    ck2.filePaths.getLast? = some (pathJoin ck.dirPath (ckptName ck.steps c)) ∧
    (⟨ckptName ck.steps c, true⟩ : DirEntry) ∈ w2.entries ∧
    getStepsAndCount (pathJoin ck.dirPath (ckptName ck.steps c)) = none ∧
    (∀ d2 fs2, (∃ e, e ∈ fs2 ∧ e.name = ckptName ck.steps c ∧ e.isFile = true) →
      getCkptFilePaths d2 fs2 = .error .corruptName) ∧
    (∀ ck3 w3, w3.dirExists = true →
      (∃ e, e ∈ w3.entries ∧ e.name = ckptName ck.steps c ∧ e.isFile = true) →
      Checkpoint.load ck3.dirPath w3 = .error .corruptName ∧
      Checkpoint.restore ck3 w3 = .error .corruptName ∧
      Checkpoint.purge ck3 w3 = .error .corruptName) := by
  obtain ⟨-, ps2, fs2, hev, hck2, hw2⟩ := save_ok_unfold h
  have hscan : ∀ d2 fs3, (∃ e, e ∈ fs3 ∧ e.name = ckptName ck.steps c ∧ e.isFile = true) →
      getCkptFilePaths d2 fs3 = .error .corruptName := by
    intro d2 fs3 ⟨e, he, hname, hfile⟩
    rw [scan_eq_error_iff]
    refine ⟨rfl, pathJoin d2 e.name, ?_, ?_⟩
    · refine mem_matchedPaths.mpr ⟨e, he, ?_, rfl⟩
      rw [matchesCkpt, hfile, hname, Bool.true_and]
      exact strContains_join_ckptName d2 ck.steps c
    · rw [hname]
      exact getStepsAndCount_join_neg hst hc
  refine ⟨by rw [hck2], ?_, ?_, getStepsAndCount_join_neg hst hc, hscan, ?_⟩
  · rw [hck2]
    exact List.getLast?_concat _
  · rw [hw2]
    show _ ∈ writeFile fs2 (ckptName ck.steps c)
    rw [writeFile]
    exact List.mem_append_right _ (List.mem_singleton.mpr rfl)
  · intro ck3 w3 hde hex
    exact ⟨scan_error_load hde (hscan _ _ hex),
      scan_error_restore hde (hscan _ _ hex),
      scan_error_purge hde (hscan _ _ hex)⟩

/-- Claim C10 witness: a concrete save with `count = -5` produces
`checkpoint-1000--5`, which discovery cannot parse. -/
theorem claim_C10_witness :
    getStepsAndCount (pathJoin "/d" (ckptName 1000 (-5))) = none :=
  (claim_C10 ⟨"/d", 1000, 1, [], 0⟩ ⟨true, []⟩ (-5)
    ⟨"/d", 1000, 1, ["/d/checkpoint-1000--5"], -5⟩
    ⟨true, [⟨"checkpoint-1000--5", true⟩]⟩ (by omega) (by decide) rfl).2.2.2.1

/-! ### Unfolding lemmas for init, load, restore, purge, setters -/

theorem init_ok_unfold {d : String} {s m : Int} {w : World} {ck : Checkpoint} {w2 : World}
    (h : Checkpoint.init d s m w = .ok (ck, w2)) :
    0 < s ∧ 0 < m ∧ ck = ⟨d, s, m, [], 0⟩ ∧ w2 = ⟨true, w.entries⟩ := by
  rw [Checkpoint.init] at h
  by_cases hpos : checkPositive [s, m] = true
  · rw [if_pos hpos] at h
    rw [checkPositive_iff] at hpos
    have hinj := Except.ok.inj h
    exact ⟨hpos s (by simp), hpos m (by simp),
      (congrArg Prod.fst hinj).symm, (congrArg Prod.snd hinj).symm⟩
  · rw [if_neg hpos] at h
    exact Except.noConfusion h

theorem setSteps_ok_unfold {ck : Checkpoint} {v : Int} {ck2 : Checkpoint}
    (h : ck.setSteps v = .ok ck2) : 0 < v ∧ ck2 = { ck with steps := v } := by
  rw [Checkpoint.setSteps] at h
  by_cases hpos : checkPositive [v] = true
  · rw [if_pos hpos] at h
    rw [checkPositive_iff] at hpos
    exact ⟨hpos v (by simp), (Except.ok.inj h).symm⟩
  · rw [if_neg hpos] at h
    exact Except.noConfusion h

theorem setMaxToKeep_ok_unfold {ck : Checkpoint} {v : Int} {ck2 : Checkpoint}
    (h : ck.setMaxToKeep v = .ok ck2) : 0 < v ∧ ck2 = { ck with maxToKeep := v } := by
  rw [Checkpoint.setMaxToKeep] at h
  by_cases hpos : checkPositive [v] = true
  · rw [if_pos hpos] at h
    rw [checkPositive_iff] at hpos
    exact ⟨hpos v (by simp), (Except.ok.inj h).symm⟩
  · rw [if_neg hpos] at h
    exact Except.noConfusion h

theorem load_ok_unfold {d : String} {w : World} {ck : Checkpoint} {w2 : World}
    (h : Checkpoint.load d w = .ok (ck, w2)) :
    w.dirExists = true ∧ ∃ l s c,
      getCkptFilePaths d w.entries = .ok l ∧ l ≠ [] ∧
      getStepsAndCount (l.getLastD "") = some (s, c) ∧ 0 < s ∧
      ck = ⟨d, s, defaultMaxToKeep, l, c⟩ ∧ w2 = ⟨true, w.entries⟩ := by
  cases hde : w.dirExists with
  | false =>
    rw [Checkpoint.load, hde, if_pos (by simp)] at h
    exact Except.noConfusion h
  | true =>
    refine ⟨rfl, ?_⟩
    rw [Checkpoint.load, hde, if_neg (by simp)] at h
    cases hsc : getCkptFilePaths d w.entries with
    | error e =>
      rw [hsc] at h
      exact Except.noConfusion h
    | ok l =>
      rw [hsc] at h
      dsimp only at h
      by_cases hemp : l.isEmpty = true
      · rw [if_pos hemp] at h
        exact Except.noConfusion h
      · rw [if_neg hemp] at h
        cases hparse : getStepsAndCount (l.getLastD "") with
        | none =>
          rw [hparse] at h
          exact Except.noConfusion h
        | some sc =>
          obtain ⟨s, c⟩ := sc
          rw [hparse] at h
          dsimp only at h
          obtain ⟨hs, hm, hinit, -⟩ :
              0 < s ∧ 0 < defaultMaxToKeep ∧ (True : Prop) ∧ (True : Prop) := by
            rw [Checkpoint.init] at h
            by_cases hpos : checkPositive [s, defaultMaxToKeep] = true
            · rw [checkPositive_iff] at hpos
              exact ⟨hpos s (by simp), hpos defaultMaxToKeep (by simp), trivial, trivial⟩
            · rw [if_neg hpos] at h
              exact Except.noConfusion h
          rw [Checkpoint.init,
            if_pos ((checkPositive_iff _).mpr (by
              intro x hx
              rcases List.mem_cons.mp hx with he | hx
              · omega
              · rcases List.mem_cons.mp hx with he | hx
                · omega
                · simp at hx))] at h
          dsimp only at h
          have hinj := Except.ok.inj h
          refine ⟨l, s, c, rfl, ?_, hparse, hs,
            (congrArg Prod.fst hinj).symm, (congrArg Prod.snd hinj).symm⟩
          intro he
          rw [he] at hemp
          exact hemp rfl

theorem restore_ok_unfold {ck : Checkpoint} {w : World} {ck2 : Checkpoint}
    (h : Checkpoint.restore ck w = .ok ck2) :
    w.dirExists = true ∧ ∃ l s c,
      getCkptFilePaths ck.dirPath w.entries = .ok l ∧ l ≠ [] ∧
      getStepsAndCount (l.getLastD "") = some (s, c) ∧
      ck2 = { ck with filePaths := l, count := c } := by
  cases hde : w.dirExists with
  | false =>
    rw [Checkpoint.restore, hde, if_pos (by simp)] at h
    exact Except.noConfusion h
  | true =>
    refine ⟨rfl, ?_⟩
    rw [Checkpoint.restore, hde, if_neg (by simp)] at h
    cases hsc : getCkptFilePaths ck.dirPath w.entries with
    | error e =>
      rw [hsc] at h
      exact Except.noConfusion h
    | ok l =>
      rw [hsc] at h
      dsimp only at h
      by_cases hemp : l.isEmpty = true
      · rw [if_pos hemp] at h
        exact Except.noConfusion h
      · rw [if_neg hemp] at h
        cases hparse : getStepsAndCount (l.getLastD "") with
        | none =>
          rw [hparse] at h
          exact Except.noConfusion h
        | some sc =>
          rw [hparse] at h
          dsimp only at h
          refine ⟨l, sc.1, sc.2, rfl, ?_, hparse, (Except.ok.inj h).symm⟩
          intro he
          rw [he] at hemp
          exact hemp rfl

theorem purge_ok_ck {ck : Checkpoint} {w : World}
    {out : List String × Checkpoint × World}
    (h : Checkpoint.purge ck w = .ok out) :
    out.2.1 = { ck with filePaths := [], count := 0 } := by
  cases hde : w.dirExists with
  | false =>
    rw [Checkpoint.purge, hde, if_pos (by simp)] at h
    exact Except.noConfusion h
  | true =>
    rw [Checkpoint.purge, hde, if_neg (by simp)] at h
    cases hsc : getCkptFilePaths ck.dirPath w.entries with
    | error e =>
      rw [hsc] at h
      exact Except.noConfusion h
    | ok l =>
      rw [hsc] at h
      dsimp only at h
      rw [← Except.ok.inj h]

/-! ### Invariants over reachable states -/

theorem countMatchesLast_of_last {ck : Checkpoint} (f : String)
    (hl : ck.filePaths.getLast? = some f) (he : embCount f = some ck.count) :
    countMatchesLast ck := by
  rw [countMatchesLast, hl]
  exact he

theorem countMatchesLast_of_none {ck : Checkpoint}
    (hl : ck.filePaths.getLast? = none) (hc : ck.count = 0) : countMatchesLast ck := by
  rw [countMatchesLast, hl]
  exact hc

theorem embCount_of_parse {p : String} {s c : Int} (h : getStepsAndCount p = some (s, c)) :
    embCount p = some c := by
  rw [embCount, h]
  rfl

theorem embCount_isSome {f : String} (h : (getStepsAndCount f).isSome = true) :
    (embCount f).isSome = true := by
  cases hx : getStepsAndCount f with
  | none =>
    rw [hx] at h
    exact absurd h (by simp)
  | some sc =>
    rw [embCount, hx]
    rfl

/-- The joint invariant carried through every successful operation when each
`save` is called with a non-negative count. -/
theorem reach_nonneg_inv {ck : Checkpoint} {w : World}
    (h : ReachableVia (fun _ c => 0 ≤ c) ck w) :
    0 < ck.steps ∧ countMatchesLast ck := by
  induction h with
  | fromInit d s m w0 ck0 w2 h0 =>
    obtain ⟨hs, -, hck, -⟩ := init_ok_unfold h0
    subst hck
    exact ⟨hs, countMatchesLast_of_none rfl rfl⟩
  | fromLoad d w0 ck0 w2 h0 =>
    obtain ⟨-, l, s, c, hsc, hne, hparse, hs, hck, -⟩ := load_ok_unfold h0
    subst hck
    refine ⟨hs, ?_⟩
    refine countMatchesLast_of_last (l.getLastD "") ?_ ?_
    · show l.getLast? = some (l.getLastD "")
      exact getLast?_eq_getLastD hne
    · exact embCount_of_parse hparse
  | fromSave ck1 w1 c ck2 w2 hr hP hsave ih =>
    obtain ⟨-, ps2, fs2, hev, hck2, -⟩ := save_ok_unfold hsave
    subst hck2
    refine ⟨ih.1, ?_⟩
    refine countMatchesLast_of_last (pathJoin ck1.dirPath (ckptName ck1.steps c)) ?_ ?_
    · show (ps2 ++ [pathJoin ck1.dirPath (ckptName ck1.steps c)]).getLast? = _
      exact List.getLast?_concat _
    · exact embCount_of_parse (getStepsAndCount_join (by omega) hP)
  | fromRestore ck1 w1 ck2 hr hres ih =>
    obtain ⟨-, l, s, c, hsc, hne, hparse, hck2⟩ := restore_ok_unfold hres
    subst hck2
    refine ⟨ih.1, ?_⟩
    refine countMatchesLast_of_last (l.getLastD "") ?_ ?_
    · show l.getLast? = some (l.getLastD "")
      exact getLast?_eq_getLastD hne
    · exact embCount_of_parse hparse
  | fromPurge ck1 w1 r ck2 w2 hr hpurge ih =>
    have hck2 : ck2 = { ck1 with filePaths := [], count := 0 } := purge_ok_ck hpurge
    subst hck2
    exact ⟨ih.1, countMatchesLast_of_none rfl rfl⟩
  | fromSetSteps ck1 w1 v ck2 hr hset ih =>
    obtain ⟨hv, hck2⟩ := setSteps_ok_unfold hset
    subst hck2
    exact ⟨hv, ih.2⟩
  | fromSetMaxToKeep ck1 w1 v ck2 hr hset ih =>
    obtain ⟨hv, hck2⟩ := setMaxToKeep_ok_unfold hset
    subst hck2
    exact ⟨ih.1, ih.2⟩

/-- The joint invariant carried through every successful operation when each
`save` uses a count at least the manager's current count: `steps` positive,
`count` non-negative and matching the last entry, `filePaths` sorted
ascending by embedded count with every entry parseable and bounded by
`count`. -/
theorem reach_mono_inv {ck : Checkpoint} {w : World}
    (h : ReachableVia (fun ck c => ck.count ≤ c) ck w) :
    0 < ck.steps ∧ 0 ≤ ck.count ∧ countMatchesLast ck ∧
      sortedByCount ck.filePaths ∧
      (∀ f ∈ ck.filePaths, (embCount f).isSome = true) ∧
      (∀ f ∈ ck.filePaths, keyCount f ≤ ck.count) := by
  induction h with
  | fromInit d s m w0 ck0 w2 h0 =>
    obtain ⟨hs, -, hck, -⟩ := init_ok_unfold h0
    subst hck
    exact ⟨hs, le_refl 0, countMatchesLast_of_none rfl rfl,
      List.Pairwise.nil, by simp, by simp⟩
  | fromLoad d w0 ck0 w2 h0 =>
    obtain ⟨-, l, s, c, hsc, hne, hparse, hs, hck, -⟩ := load_ok_unfold h0
    subst hck
    obtain ⟨hperm, hsorted, hparseable⟩ := scan_ok_facts hsc
    refine ⟨hs, (getStepsAndCount_nonneg hparse).2, ?_, hsorted, ?_, ?_⟩
    · exact countMatchesLast_of_last (l.getLastD "") (getLast?_eq_getLastD hne)
        (embCount_of_parse hparse)
    · intro f hf
      exact embCount_isSome (hparseable f hf)
    · intro f hf
      have := sorted_le_getLastD hsorted f hf
      rw [keyCount_eq hparse] at this
      exact this
  | fromSave ck1 w1 c ck2 w2 hr hP hsave ih =>
    obtain ⟨hs1, hc1, hcml, hsorted, hparseable, hmax⟩ := ih
    obtain ⟨-, ps2, fs2, hev, hck2, -⟩ := save_ok_unfold hsave
    obtain ⟨-, k, -, hdrop, -⟩ := evict_ok_facts _ _ hev
    subst hck2
    have hc0 : 0 ≤ c := le_trans hc1 hP
    have hparsenew : getStepsAndCount (pathJoin ck1.dirPath (ckptName ck1.steps c))
        = some (ck1.steps, c) := getStepsAndCount_join (by omega) hc0
    have hkeynew : keyCount (pathJoin ck1.dirPath (ckptName ck1.steps c)) = c :=
      keyCount_eq hparsenew
    have hsub : ∀ f ∈ ps2, f ∈ ck1.filePaths := by
      intro f hf
      rw [hdrop] at hf
      exact List.drop_subset k ck1.filePaths hf
    refine ⟨hs1, hc0, ?_, ?_, ?_, ?_⟩
    · exact countMatchesLast_of_last (pathJoin ck1.dirPath (ckptName ck1.steps c))
        (List.getLast?_concat _) (embCount_of_parse hparsenew)
    · show sortedByCount (ps2 ++ [pathJoin ck1.dirPath (ckptName ck1.steps c)])
      rw [sortedByCount, List.pairwise_append]
      refine ⟨?_, List.pairwise_singleton _ _, ?_⟩
      · rw [hdrop]
        exact hsorted.sublist (List.drop_sublist k ck1.filePaths)
      · intro a ha b hb
        rw [List.mem_singleton.mp hb, hkeynew]
        exact le_trans (hmax a (hsub a ha)) hP
    · intro f hf
      rcases List.mem_append.mp hf with hm | hm
      · exact hparseable f (hsub f hm)
      · rw [List.mem_singleton.mp hm, embCount, hparsenew]
        rfl
    · intro f hf
      show keyCount f ≤ c
      rcases List.mem_append.mp hf with hm | hm
      · exact le_trans (hmax f (hsub f hm)) hP
      · rw [List.mem_singleton.mp hm, hkeynew]
  | fromRestore ck1 w1 ck2 hr hres ih =>
    obtain ⟨-, l, s, c, hsc, hne, hparse, hck2⟩ := restore_ok_unfold hres
    subst hck2
    obtain ⟨hperm, hsorted, hparseable⟩ := scan_ok_facts hsc
    refine ⟨ih.1, (getStepsAndCount_nonneg hparse).2, ?_, hsorted, ?_, ?_⟩
    · exact countMatchesLast_of_last (l.getLastD "") (getLast?_eq_getLastD hne)
        (embCount_of_parse hparse)
    · intro f hf
      exact embCount_isSome (hparseable f hf)
    · intro f hf
      have := sorted_le_getLastD hsorted f hf
      rw [keyCount_eq hparse] at this
      exact this
  | fromPurge ck1 w1 r ck2 w2 hr hpurge ih =>
    have hck2 : ck2 = { ck1 with filePaths := [], count := 0 } := purge_ok_ck hpurge
    subst hck2
    exact ⟨ih.1, le_refl 0, countMatchesLast_of_none rfl rfl,
      List.Pairwise.nil, by simp, by simp⟩
  | fromSetSteps ck1 w1 v ck2 hr hset ih =>
    obtain ⟨hv, hck2⟩ := setSteps_ok_unfold hset
    subst hck2
    exact ⟨hv, ih.2.1, ih.2.2.1, ih.2.2.2.1, ih.2.2.2.2.1, ih.2.2.2.2.2⟩
  | fromSetMaxToKeep ck1 w1 v ck2 hr hset ih =>
    obtain ⟨hv, hck2⟩ := setMaxToKeep_ok_unfold hset
    subst hck2
    exact ⟨ih.1, ih.2.1, ih.2.2.1, ih.2.2.2.1, ih.2.2.2.2.1, ih.2.2.2.2.2⟩

/-- Claim C5 counterexample: a reachable state (construct, save count 5, save
count 3, all successful) whose `filePaths` is NOT sorted ascending by embedded
count — `save` never validates monotonicity of the counts it is given. -/
theorem claim_C5_counterexample :
    Reachable ⟨"/d", 1000, 2, ["/d/checkpoint-1000-5", "/d/checkpoint-1000-3"], 3⟩
        ⟨true, [⟨"checkpoint-1000-5", true⟩, ⟨"checkpoint-1000-3", true⟩]⟩ ∧
      ¬ sortedByCount ["/d/checkpoint-1000-5", "/d/checkpoint-1000-3"] := by
  constructor
  · have h1 : Checkpoint.init "/d" 1000 2 ⟨false, []⟩ =
        .ok (⟨"/d", 1000, 2, [], 0⟩, ⟨true, []⟩) := rfl
    have h2 : Checkpoint.save ⟨"/d", 1000, 2, [], 0⟩ ⟨true, []⟩ true 5 =
        (.ok (), ⟨"/d", 1000, 2, ["/d/checkpoint-1000-5"], 5⟩,
          ⟨true, [⟨"checkpoint-1000-5", true⟩]⟩) := rfl
    have h3 : Checkpoint.save ⟨"/d", 1000, 2, ["/d/checkpoint-1000-5"], 5⟩
        ⟨true, [⟨"checkpoint-1000-5", true⟩]⟩ true 3 =
        (.ok (), ⟨"/d", 1000, 2, ["/d/checkpoint-1000-5", "/d/checkpoint-1000-3"], 3⟩,
          ⟨true, [⟨"checkpoint-1000-5", true⟩, ⟨"checkpoint-1000-3", true⟩]⟩) := rfl
    exact ReachableVia.fromSave _ _ 3 _ _
      (ReachableVia.fromSave _ _ 5 _ _
        (ReachableVia.fromInit "/d" 1000 2 ⟨false, []⟩ _ _ h1) trivial h2)
      trivial h3
  · intro hcon
    rw [sortedByCount, List.pairwise_cons] at hcon
    have hle := hcon.1 _ (List.mem_cons_self _ _)
    have h5 : keyCount "/d/checkpoint-1000-5" = 5 := by decide
    have h3 : keyCount "/d/checkpoint-1000-3" = 3 := by decide
    rw [h5, h3] at hle
    omega

/-- Claim C5 (amended): in every state reachable through successful
operations in which each `save` is called with a count at least the manager's
current count, `filePaths` is sorted ascending by the embedded count and every
tracked name parses. -/
theorem claim_C5_amended (ck : Checkpoint) (w : World)
    (h : ReachableVia (fun ck c => ck.count ≤ c) ck w) :
    sortedByCount ck.filePaths ∧ ∀ f ∈ ck.filePaths, (embCount f).isSome = true :=
  ⟨(reach_mono_inv h).2.2.2.1, (reach_mono_inv h).2.2.2.2.1⟩

/-- Claim C5 (amended) witness: the state after construct, save 5, save 7 is
reachable with monotone counts and sorted. -/
theorem claim_C5_witness :
    sortedByCount ["/d/checkpoint-1000-5", "/d/checkpoint-1000-7"] ∧
      ∀ f ∈ (["/d/checkpoint-1000-5", "/d/checkpoint-1000-7"] : List String),
        (embCount f).isSome = true :=
  claim_C5_amended ⟨"/d", 1000, 2, ["/d/checkpoint-1000-5", "/d/checkpoint-1000-7"], 7⟩
    ⟨true, [⟨"checkpoint-1000-5", true⟩, ⟨"checkpoint-1000-7", true⟩]⟩
    (by
      have h1 : Checkpoint.init "/d" 1000 2 ⟨false, []⟩ =
          .ok (⟨"/d", 1000, 2, [], 0⟩, ⟨true, []⟩) := rfl
      have h2 : Checkpoint.save ⟨"/d", 1000, 2, [], 0⟩ ⟨true, []⟩ true 5 =
          (.ok (), ⟨"/d", 1000, 2, ["/d/checkpoint-1000-5"], 5⟩,
            ⟨true, [⟨"checkpoint-1000-5", true⟩]⟩) := rfl
      have h3 : Checkpoint.save ⟨"/d", 1000, 2, ["/d/checkpoint-1000-5"], 5⟩
          ⟨true, [⟨"checkpoint-1000-5", true⟩]⟩ true 7 =
          (.ok (), ⟨"/d", 1000, 2, ["/d/checkpoint-1000-5", "/d/checkpoint-1000-7"], 7⟩,
            ⟨true, [⟨"checkpoint-1000-5", true⟩, ⟨"checkpoint-1000-7", true⟩]⟩) := rfl
      exact ReachableVia.fromSave _ _ 7 _ _
        (ReachableVia.fromSave _ _ 5 _ _
          (ReachableVia.fromInit "/d" 1000 2 ⟨false, []⟩ _ _ h1) (by decide) h2)
        (by decide) h3)

theorem getLast?_drop_of_ne_nil {α : Type} : ∀ (k : Nat) (l : List α), l.drop k ≠ [] →
    (l.drop k).getLast? = l.getLast? := by
  intro k
  induction k with
  | zero => intro l h; rfl
  | succ k ih =>
    intro l h
    cases l with
    | nil => simp at h
    | cons x xs =>
      rw [List.drop_succ_cons] at h ⊢
      rw [ih xs h]
      have hxs : xs ≠ [] := by
        intro he
        rw [he] at h
        simp at h
      cases xs with
      | nil => exact absurd rfl hxs
      | cons y ys => rw [List.getLast?_cons_cons]

/-- Every outcome of `save` (success, model-write failure, eviction failure)
keeps `steps` and either appends the new path with the new count, or keeps
the old count with `filePaths` shrunk to a dropped-prefix suffix. -/
theorem save_state_cases {ck : Checkpoint} {w : World} {b : Bool} {c : Int}
    {r : Except Err Unit} {ck2 : Checkpoint} {w2 : World}
    (h : Checkpoint.save ck w b c = (r, ck2, w2)) :
    ck2.steps = ck.steps ∧
      ((r = .ok () ∧ ck2.count = c ∧
          ∃ k, ck2.filePaths = ck.filePaths.drop k ++
            [pathJoin ck.dirPath (ckptName ck.steps c)]) ∨
        (ck2.count = ck.count ∧ ∃ k, ck2.filePaths = ck.filePaths.drop k)) := by
  rcases hev : evict ck.dirPath ck.maxToKeep ck.filePaths w.entries with ⟨re, ps2, fs2⟩
  obtain ⟨k, -, hdrop⟩ := evict_drop _ _ hev
  simp only [Checkpoint.save] at h
  rw [hev] at h
  cases re with
  | error e =>
    dsimp only at h
    simp only [Prod.mk.injEq] at h
    refine ⟨by rw [← h.2.1], Or.inr ⟨by rw [← h.2.1], k, ?_⟩⟩
    rw [← h.2.1]
    exact hdrop
  | ok u =>
    cases u
    dsimp only at h
    cases b with
    | false =>
      rw [if_neg (by simp)] at h
      simp only [Prod.mk.injEq] at h
      refine ⟨by rw [← h.2.1], Or.inr ⟨by rw [← h.2.1], k, ?_⟩⟩
      rw [← h.2.1]
      exact hdrop
    | true =>
      rw [if_pos rfl] at h
      simp only [Prod.mk.injEq] at h
      refine ⟨by rw [← h.2.1], Or.inl ⟨h.1.symm, by rw [← h.2.1], k, ?_⟩⟩
      rw [← h.2.1]
      show ps2 ++ _ = _
      rw [hdrop]

/-- Histories of successfully completing calls are in particular histories in
which the saves were allowed any outcome. -/
theorem reachable_all_of_reachable {P : Checkpoint → Int → Prop} {ck : Checkpoint}
    {w : World} (h : ReachableVia P ck w) : ReachableAllVia P ck w := by
  induction h with
  | fromInit d s m w0 ck0 w2 h0 => exact ReachableAllVia.fromInit d s m w0 ck0 w2 h0
  | fromLoad d w0 ck0 w2 h0 => exact ReachableAllVia.fromLoad d w0 ck0 w2 h0
  | fromSave ck1 w1 c ck2 w2 hr hP hs ih =>
    exact ReachableAllVia.fromSaveAny ck1 w1 true c (.ok ()) ck2 w2 ih hP hs
  | fromRestore ck1 w1 ck2 hr hres ih => exact ReachableAllVia.fromRestore ck1 w1 ck2 ih hres
  | fromPurge ck1 w1 r ck2 w2 hr hp ih => exact ReachableAllVia.fromPurge ck1 w1 r ck2 w2 ih hp
  | fromSetSteps ck1 w1 v ck2 hr hset ih => exact ReachableAllVia.fromSetSteps ck1 w1 v ck2 ih hset
  | fromSetMaxToKeep ck1 w1 v ck2 hr hset ih =>
    exact ReachableAllVia.fromSetMaxToKeep ck1 w1 v ck2 ih hset

/-- The invariant that survives even failing saves with non-negative counts:
`steps` stays positive and `count` matches the embedded count of the last
tracked path whenever one exists.  (The `count = 0` half for an empty list
does NOT survive failing saves: eviction can empty the list before the model
write raises, leaving the old count behind.) -/
theorem reach_all_nonneg_inv {ck : Checkpoint} {w : World}
    (h : ReachableAllVia (fun _ c => 0 ≤ c) ck w) :
    0 < ck.steps ∧ ∀ f, ck.filePaths.getLast? = some f → embCount f = some ck.count := by
  induction h with
  | fromInit d s m w0 ck0 w2 h0 =>
    obtain ⟨hs, -, hck, -⟩ := init_ok_unfold h0
    subst hck
    exact ⟨hs, fun f hf => Option.noConfusion hf⟩
  | fromLoad d w0 ck0 w2 h0 =>
    obtain ⟨-, l, s, c, hsc, hne, hparse, hs, hck, -⟩ := load_ok_unfold h0
    subst hck
    refine ⟨hs, fun f hf => ?_⟩
    have hlast : l.getLast? = some (l.getLastD "") := getLast?_eq_getLastD hne
    rw [hlast] at hf
    rw [← Option.some.inj hf]
    exact embCount_of_parse hparse
  | fromSaveAny ck1 w1 b c r ck2 w2 hr hP hsv ih =>
    obtain ⟨hsteps, hcase⟩ := save_state_cases hsv
    rcases hcase with ⟨-, hcnt, k, hfp⟩ | ⟨hcnt, k, hfp⟩
    · refine ⟨hsteps ▸ ih.1, fun f hf => ?_⟩
      rw [hfp, List.getLast?_concat] at hf
      rw [hcnt, ← Option.some.inj hf]
      exact embCount_of_parse (getStepsAndCount_join (by have := ih.1; omega) hP)
    · refine ⟨hsteps ▸ ih.1, fun f hf => ?_⟩
      rw [hfp] at hf
      have hne : ck1.filePaths.drop k ≠ [] := by
        intro he
        rw [he] at hf
        exact Option.noConfusion hf
      rw [getLast?_drop_of_ne_nil k ck1.filePaths hne] at hf
      rw [hcnt]
      exact ih.2 f hf
  | fromRestore ck1 w1 ck2 hr hres ih =>
    obtain ⟨-, l, s, c, hsc, hne, hparse, hck2⟩ := restore_ok_unfold hres
    subst hck2
    refine ⟨ih.1, fun f hf => ?_⟩
    have hlast : l.getLast? = some (l.getLastD "") := getLast?_eq_getLastD hne
    rw [show ({ ck1 with filePaths := l, count := c } : Checkpoint).filePaths = l from rfl,
      hlast] at hf
    rw [← Option.some.inj hf]
    exact embCount_of_parse hparse
  | fromPurge ck1 w1 r ck2 w2 hr hpurge ih =>
    have hck2 : ck2 = { ck1 with filePaths := [], count := 0 } := purge_ok_ck hpurge
    subst hck2
    exact ⟨ih.1, fun f hf => Option.noConfusion hf⟩
  | fromSetSteps ck1 w1 v ck2 hr hset ih =>
    obtain ⟨hv, hck2⟩ := setSteps_ok_unfold hset
    subst hck2
    exact ⟨hv, ih.2⟩
  | fromSetMaxToKeep ck1 w1 v ck2 hr hset ih =>
    obtain ⟨hv, hck2⟩ := setMaxToKeep_ok_unfold hset
    subst hck2
    exact ⟨ih.1, ih.2⟩

/-- Claim C6 counterexample: two concrete reachable states violate the
invariant as stated.  First, after construct then a successful save with
count `-5`, `filePaths` is non-empty but its last name `checkpoint-1000--5`
embeds no parseable count, so `count = -5` matches nothing.  Second, with
only non-negative counts: from one tracked checkpoint at `maxToKeep = 1`, a
`save(..., 8)` whose model write raises runs eviction first and leaves
`filePaths = []` with `count = 7 ≠ 0`, breaking the claim's empty case. -/
theorem claim_C6_counterexample :
    (Reachable ⟨"/d", 1000, 2, ["/d/checkpoint-1000--5"], -5⟩
        ⟨true, [⟨"checkpoint-1000--5", true⟩]⟩ ∧
      ¬ countMatchesLast ⟨"/d", 1000, 2, ["/d/checkpoint-1000--5"], -5⟩) ∧
    (ReachableAllVia (fun _ c => 0 ≤ c) ⟨"/d", 1000, 1, [], 7⟩ ⟨true, []⟩ ∧
      ¬ countMatchesLast ⟨"/d", 1000, 1, [], 7⟩) := by
  refine ⟨⟨?_, ?_⟩, ?_, ?_⟩
  · have h1 : Checkpoint.init "/d" 1000 2 ⟨false, []⟩ =
        .ok (⟨"/d", 1000, 2, [], 0⟩, ⟨true, []⟩) := rfl
    have h2 : Checkpoint.save ⟨"/d", 1000, 2, [], 0⟩ ⟨true, []⟩ true (-5) =
        (.ok (), ⟨"/d", 1000, 2, ["/d/checkpoint-1000--5"], -5⟩,
          ⟨true, [⟨"checkpoint-1000--5", true⟩]⟩) := rfl
    exact ReachableVia.fromSave _ _ (-5) _ _
      (ReachableVia.fromInit "/d" 1000 2 ⟨false, []⟩ _ _ h1) trivial h2
  · intro hcon
    have hred : countMatchesLast ⟨"/d", 1000, 2, ["/d/checkpoint-1000--5"], -5⟩ =
        (embCount "/d/checkpoint-1000--5" = some (-5)) := rfl
    rw [hred] at hcon
    have hemb : embCount "/d/checkpoint-1000--5" = none := by decide
    rw [hemb] at hcon
    exact Option.noConfusion hcon
  · have h1 : Checkpoint.init "/d" 1000 1 ⟨false, []⟩ =
        .ok (⟨"/d", 1000, 1, [], 0⟩, ⟨true, []⟩) := rfl
    have h2 : Checkpoint.save ⟨"/d", 1000, 1, [], 0⟩ ⟨true, []⟩ true 7 =
        (.ok (), ⟨"/d", 1000, 1, ["/d/checkpoint-1000-7"], 7⟩,
          ⟨true, [⟨"checkpoint-1000-7", true⟩]⟩) := rfl
    have h3 : Checkpoint.save ⟨"/d", 1000, 1, ["/d/checkpoint-1000-7"], 7⟩
        ⟨true, [⟨"checkpoint-1000-7", true⟩]⟩ false 8 =
        (.error .persistenceFailure, ⟨"/d", 1000, 1, [], 7⟩, ⟨true, []⟩) := rfl
    exact ReachableAllVia.fromSaveAny _ _ false 8 (.error .persistenceFailure) _ _
      (ReachableAllVia.fromSaveAny _ _ true 7 (.ok ()) _ _
        (ReachableAllVia.fromInit "/d" 1000 1 ⟨false, []⟩ _ _ h1) (by decide) h2)
      (by decide) h3
  · intro hcon
    have hred : countMatchesLast ⟨"/d", 1000, 1, [], 7⟩ = ((7 : Int) = 0) := rfl
    rw [hred] at hcon
    exact absurd hcon (by decide)

/-- Claim C6 (amended): over histories of construction, save (with ANY
outcome, failures included), load, restore, purge and setter calls in which
every save uses a non-negative count, `count` equals the count embedded in
the last element of `filePaths` whenever `filePaths` is non-empty; the
claim's other half — `count = 0` whenever `filePaths` is empty — holds
additionally whenever every call completed successfully (a failing save can
first empty the list by eviction and then keep the pre-call count). -/
theorem claim_C6_amended (ck : Checkpoint) (w : World) :
    (ReachableAllVia (fun _ c => 0 ≤ c) ck w →
      ∀ f, ck.filePaths.getLast? = some f → embCount f = some ck.count) ∧
    (ReachableVia (fun _ c => 0 ≤ c) ck w → countMatchesLast ck) :=
  ⟨fun h => (reach_all_nonneg_inv h).2, fun h => (reach_nonneg_inv h).2⟩

/-- Claim C6 (amended) witness: the non-empty half applied after construct
then save 7 (a history with a failure-allowing save), and the empty-included
half applied after construct then save 5 (an all-successful history). -/
theorem claim_C6_witness :
    embCount "/d/checkpoint-1000-7" =
        some (( ⟨"/d", 1000, 1, ["/d/checkpoint-1000-7"], 7⟩ : Checkpoint).count) ∧
      countMatchesLast ⟨"/d", 1000, 2, ["/d/checkpoint-1000-5"], 5⟩ := by
  constructor
  · refine (claim_C6_amended ⟨"/d", 1000, 1, ["/d/checkpoint-1000-7"], 7⟩
      ⟨true, [⟨"checkpoint-1000-7", true⟩]⟩).1 ?_ "/d/checkpoint-1000-7" rfl
    have h1 : Checkpoint.init "/d" 1000 1 ⟨false, []⟩ =
        .ok (⟨"/d", 1000, 1, [], 0⟩, ⟨true, []⟩) := rfl
    have h2 : Checkpoint.save ⟨"/d", 1000, 1, [], 0⟩ ⟨true, []⟩ true 7 =
        (.ok (), ⟨"/d", 1000, 1, ["/d/checkpoint-1000-7"], 7⟩,
          ⟨true, [⟨"checkpoint-1000-7", true⟩]⟩) := rfl
    exact ReachableAllVia.fromSaveAny _ _ true 7 (.ok ()) _ _
      (ReachableAllVia.fromInit "/d" 1000 1 ⟨false, []⟩ _ _ h1) (by decide) h2
  · refine (claim_C6_amended ⟨"/d", 1000, 2, ["/d/checkpoint-1000-5"], 5⟩
      ⟨true, [⟨"checkpoint-1000-5", true⟩]⟩).2 ?_
    have h1 : Checkpoint.init "/d" 1000 2 ⟨false, []⟩ =
        .ok (⟨"/d", 1000, 2, [], 0⟩, ⟨true, []⟩) := rfl
    have h2 : Checkpoint.save ⟨"/d", 1000, 2, [], 0⟩ ⟨true, []⟩ true 5 =
        (.ok (), ⟨"/d", 1000, 2, ["/d/checkpoint-1000-5"], 5⟩,
          ⟨true, [⟨"checkpoint-1000-5", true⟩]⟩) := rfl
    exact ReachableVia.fromSave _ _ 5 _ _
      (ReachableVia.fromInit "/d" 1000 2 ⟨false, []⟩ _ _ h1) (by decide) h2
